import Mathlib

/-!
Shallow embedding of the `rlox` lexical scanner (`src/scan/mod.rs`) and proofs
about it.

The Rust scanner walks a `String` keeping three counters: `start`, `current`
(both `usize`) and `line` (`u32`).  The embedding models the source as a
`List Char` (the decoded characters, as produced by Rust's `str::chars`).

A crucial point of faithfulness: the Rust code mixes two different units.
`is_at_end` compares `current` against `source.len()` — the *byte* length of
the UTF-8 string — and all slicing (`self.source[a..b]`) is by *byte*
offsets, while `advance`/`peek`/`match_char` read characters with
`source.chars().nth(current)` — a *character* index.  The two agree only on
ASCII sources.  The embedding therefore keeps the byte length (`byteLen`)
and byte-offset slicing (`byteSlice`) separate from character indexing
(`List.get?`).  Rust operations that panic (`Option::unwrap` on `None`,
slicing at a non-char-boundary or out of range) are modelled by the
`Fail.panic` outcome.

Loops are written with an explicit fuel argument so that every definition is
structurally recursive and kernel-computable; `Fail.fuelOut` marks fuel
exhaustion and is proved unreachable for the fuel that `scan_tokens`
supplies (on ASCII input, where the scan is proved to terminate normally).
-/

/-- UTF-8 encoded size in bytes of one character (Rust `char::len_utf8`). -/
def csize (c : Char) : Nat :=
  if c.toNat < 0x80 then 1
  else if c.toNat < 0x800 then 2
  else if c.toNat < 0x10000 then 3
  else 4

/-- Byte length of a decoded string (Rust `String::len`). -/
def byteLen (s : List Char) : Nat :=
  (s.map csize).sum

/-- Number of line-feed characters in a span. -/
def countNL (s : List Char) : Nat :=
  s.count '\n'

/-- Every character is a single UTF-8 byte (so byte offsets and character
indices coincide). -/
def allASCII (s : List Char) : Bool :=
  s.all (fun c => c.toNat < 0x80)

/-- Token kinds, from `TokenType` in the source. -/
inductive TokenType where
  | LeftParen | RightParen | LeftBrace | RightBrace
  | Comma | Dot | Minus | Plus | Semicolon | Slash | Star
  | Bang | BangEqual | Equal | EqualEqual
  | Greater | GreaterEqual | Less | LessEqual
  | Identifier | String | Number
  | And | Class | Else | False | Fun | For | If | Nil | Or
  | Print | Return | Super | This | True | Var | While
  | Eof
  deriving DecidableEq, Repr

/-- A scanned token (struct `Token`; the Rust field `r#type` is `ttype`
here).  `lexeme` and `literal` are the decoded characters of the
corresponding Rust `String`s. -/
structure Token where
  ttype : TokenType
  lexeme : List Char
  literal : List Char
  line : Nat
  deriving DecidableEq, Repr

/-- The two lexical error values (enum `ScannerError`).  Note the payloads:
`UnexpectedCharacter` carries the offending character only, and
`UnterminatedString` carries nothing. -/
inductive ScannerError where
  | UnexpectedCharacter : Char → ScannerError
  | UnterminatedString : ScannerError
  deriving DecidableEq, Repr

/-- Possible abnormal outcomes of running the embedded scanner:
a lexical error returned by the Rust code, a Rust panic (out-of-bounds
`unwrap`, or a byte slice taken at a non-character-boundary or out of
range), or fuel exhaustion of the embedding (proved unreachable for the
fuel `scan_tokens` supplies). -/
inductive Fail where
  | err : ScannerError → Fail
  | panic : Fail
  | fuelOut : Fail
  deriving DecidableEq, Repr

/-- Scanner state (struct `Scanner`). -/
structure Scanner where
  source : List Char
  tokens : List Token
  start : Nat
  current : Nat
  line : Nat
  deriving Repr

/-- `Scanner::is_at_end`: compares the character counter `current` against
the *byte* length of the source. -/
def is_at_end (st : Scanner) : Bool :=
  byteLen st.source ≤ st.current

/-- Drop exactly `n` bytes from the front, failing (like Rust slicing) if
`n` is not a character boundary or exceeds the byte length. -/
def dropBytes : List Char → Nat → Option (List Char)
  | s, 0 => some s
  | [], _ + 1 => none
  | c :: s, n + 1 =>
    if csize c ≤ n + 1 then dropBytes s (n + 1 - csize c) else none

/-- Take exactly `n` bytes from the front, failing (like Rust slicing) if
`n` is not a character boundary or exceeds the byte length. -/
def takeBytes : List Char → Nat → Option (List Char)
  | _, 0 => some []
  | [], _ + 1 => none
  | c :: s, n + 1 =>
    if csize c ≤ n + 1 then (takeBytes s (n + 1 - csize c)).map (c :: ·) else none

/-- Rust `&source[a..b]`: byte-offset slicing, `none` models the panic on a
reversed range, an out-of-range end, or a non-character-boundary offset. -/
def byteSlice (s : List Char) (a b : Nat) : Option (List Char) :=
  if a ≤ b then (dropBytes s a).bind (fun t => takeBytes t (b - a)) else none

/-- `Scanner::peek`: `'\x00'` sentinel at end of input, otherwise
`source.chars().nth(current).unwrap()` — whose panic (the char index is
exhausted although the byte-based end test fails) is `Fail.panic`. -/
def peek (st : Scanner) : Except Fail Char :=
  if is_at_end st then .ok '\x00'
  else
    match st.source.get? st.current with
    | some c => .ok c
    | none => .error .panic

/-- `Scanner::peek_next`: one character further, with the same sentinel and
panic behaviour. -/
def peek_next (st : Scanner) : Except Fail Char :=
  if byteLen st.source ≤ st.current + 1 then .ok '\x00'
  else
    match st.source.get? (st.current + 1) with
    | some c => .ok c
    | none => .error .panic

/-- `Scanner::advance`: increments `current` and returns the character at
the old position; `unwrap` on a missing character is `Fail.panic`. -/
def advance (st : Scanner) : Except Fail (Char × Scanner) :=
  match st.source.get? st.current with
  | some c => .ok (c, { st with current := st.current + 1 })
  | none => .error .panic

/-- `Scanner::match_char`: consume the next character iff it equals
`expected`.  (`chars().nth` returning `None` compares unequal to
`Some(expected)`, so this never panics.) -/
def match_char (st : Scanner) (expected : Char) : Bool × Scanner :=
  if is_at_end st then (false, st)
  else if st.source.get? st.current = some expected then
    (true, { st with current := st.current + 1 })
  else (false, st)

/-- `Scanner::add_token_literal`: pushes a token whose lexeme is the byte
slice `source[start..current]` and whose line is the current line. -/
def add_token_literal (st : Scanner) (tt : TokenType) (lit : List Char) :
    Except Fail Scanner :=
  match byteSlice st.source st.start st.current with
  | some lex =>
    .ok { st with tokens := st.tokens ++ [⟨tt, lex, lit, st.line⟩] }
  | none => .error .panic

/-- `Scanner::add_token`: empty literal payload. -/
def add_token (st : Scanner) (tt : TokenType) : Except Fail Scanner :=
  add_token_literal st tt []

/-- Rust `char::is_alphanumeric` (Unicode alphabetic or numeric), used for
identifier continuation characters.  Exact on the ASCII and Latin-1 ranges;
characters above U+00FF are classified `false` (an under-approximation of
the Unicode tables, documented here because no theorem below ever applies
the function outside Latin-1). -/
def rustIsAlphanumeric (c : Char) : Bool :=
  if c.toNat < 0x80 then
    (('a' ≤ c && c ≤ 'z') || ('A' ≤ c && c ≤ 'Z') || ('0' ≤ c && c ≤ '9'))
  else if c.toNat ≤ 0xFF then
    -- Latin-1 supplement: ª µ º ² ³ ¹ ¼ ½ ¾ and the letters À–ÿ except × ÷.
    (c.toNat = 0xAA || c.toNat = 0xB5 || c.toNat = 0xBA ||
     c.toNat = 0xB2 || c.toNat = 0xB3 || c.toNat = 0xB9 ||
     c.toNat = 0xBC || c.toNat = 0xBD || c.toNat = 0xBE ||
     (0xC0 ≤ c.toNat && c.toNat ≠ 0xD7 && c.toNat ≠ 0xF7))
  else false

/-- Rust `char::is_digit(10)`: an ASCII decimal digit. -/
def rustIsDigit (c : Char) : Bool :=
  '0' ≤ c && c ≤ '9'

/-- The keyword table of `Scanner::identifier`: the match arms on the
scanned text, in source order; `none` means the catch-all Identifier arm. -/
def keywordType (text : List Char) : Option TokenType :=
  if text = ("and").toList then some .And
  else if text = ("class").toList then some .Class
  else if text = ("else").toList then some .Else
  else if text = ("false").toList then some .False
  else if text = ("for").toList then some .For
  else if text = ("fun").toList then some .Fun
  else if text = ("if").toList then some .If
  else if text = ("nil").toList then some .Nil
  else if text = ("or").toList then some .Or
  else if text = ("print").toList then some .Print
  else if text = ("return").toList then some .Return
  else if text = ("super").toList then some .Super
  else if text = ("this").toList then some .This
  else if text = ("true").toList then some .True
  else if text = ("var").toList then some .Var
  else if text = ("while").toList then some .While
  else none

/-- The loop `while self.peek().is_alphanumeric() { self.advance(); }` of
`Scanner::identifier`, with `peek`/`advance` inlined (NUL, the end-of-input
sentinel of `peek`, is not alphanumeric, so the at-end test exits the
loop exactly as the sentinel does in Rust). -/
def identLoop : Nat → Scanner → Except Fail Scanner
  | 0, _ => .error .fuelOut
  | fuel + 1, st =>
    if byteLen st.source ≤ st.current then .ok st
    else
      match st.source.get? st.current with
      | none => .error .panic
      | some c =>
        if rustIsAlphanumeric c then
          identLoop fuel { st with current := st.current + 1 }
        else .ok st

/-- The loop `while self.peek().is_digit(10) { self.advance(); }` of
`Scanner::number` (both occurrences), with `peek`/`advance` inlined. -/
def digitsLoop : Nat → Scanner → Except Fail Scanner
  | 0, _ => .error .fuelOut
  | fuel + 1, st =>
    if byteLen st.source ≤ st.current then .ok st
    else
      match st.source.get? st.current with
      | none => .error .panic
      | some c =>
        if rustIsDigit c then
          digitsLoop fuel { st with current := st.current + 1 }
        else .ok st

/-- The body loop of `Scanner::string`:
`while self.peek() != '"' && !self.is_at_end() { if peek == '\n' line += 1; advance }`,
with `peek`/`advance` inlined (at end of input the sentinel differs from
`'"'`, so the conjunction exits through `is_at_end`, as here). -/
def stringLoop : Nat → Scanner → Except Fail Scanner
  | 0, _ => .error .fuelOut
  | fuel + 1, st =>
    if byteLen st.source ≤ st.current then .ok st
    else
      match st.source.get? st.current with
      | none => .error .panic
      | some c =>
        if c = '"' then .ok st
        else
          stringLoop fuel
            { st with
              current := st.current + 1,
              line := if c = '\n' then st.line + 1 else st.line }

/-- The line-comment loop of `Scanner::scan_token`:
`while self.peek() != '\n' && !self.is_at_end() { self.advance(); }`,
with `peek`/`advance` inlined (same sentinel remark as for `stringLoop`). -/
def commentLoop : Nat → Scanner → Except Fail Scanner
  | 0, _ => .error .fuelOut
  | fuel + 1, st =>
    if byteLen st.source ≤ st.current then .ok st
    else
      match st.source.get? st.current with
      | none => .error .panic
      | some c =>
        if c = '\n' then .ok st
        else commentLoop fuel { st with current := st.current + 1 }

/-- `Scanner::identifier`: scan the alphanumeric continuation, slice the
text, emit the keyword kind on an exact table match and an Identifier token
(with the text as literal) otherwise. -/
def identifier (fuel : Nat) (st : Scanner) : Except Fail Scanner :=
  match identLoop fuel st with
  | .error f => .error f
  | .ok st =>
    match byteSlice st.source st.start st.current with
    | none => .error .panic
    | some text =>
      match keywordType text with
      | some tt => add_token st tt
      | none => add_token_literal st .Identifier text

/-- `Scanner::number`: integral digit run, optional fractional part guarded
by `peek == '.' && peek_next.is_digit(10)`, then a Number token whose
literal is the scanned text. -/
def number (fuel : Nat) (st : Scanner) : Except Fail Scanner :=
  match digitsLoop fuel st with
  | .error f => .error f
  | .ok st =>
    match peek st with
    | .error f => .error f
    | .ok p =>
      let afterFrac : Except Fail Scanner :=
        if p = '.' then
          match peek_next st with
          | .error f => .error f
          | .ok pn =>
            if rustIsDigit pn then
              match advance st with
              | .error f => .error f
              | .ok (_, st) => digitsLoop fuel st
            else .ok st
        else .ok st
      match afterFrac with
      | .error f => .error f
      | .ok st =>
        match byteSlice st.source st.start st.current with
        | none => .error .panic
        | some lit => add_token_literal st .Number lit

/-- `Scanner::string`: scan the body, fail with `UnterminatedString` at end
of input, otherwise consume the closing quote and emit a String token whose
literal is `source[start+1..current-1]`. -/
def stringScan (fuel : Nat) (st : Scanner) : Except Fail Scanner :=
  match stringLoop fuel st with
  | .error f => .error f
  | .ok st =>
    if is_at_end st then .error (.err .UnterminatedString)
    else
      match advance st with
      | .error f => .error f
      | .ok (_, st) =>
        match byteSlice st.source (st.start + 1) (st.current - 1) with
        | none => .error .panic
        | some lit => add_token_literal st .String lit

/-- `Scanner::scan_token`: consume one character and dispatch.  The Rust
range patterns `'0'..='9'` and `'a'..='z' | 'A'..='Z' | '_'` are the two
guarded tests at the bottom; everything else falls through to
`UnexpectedCharacter`. -/
def scan_token (fuel : Nat) (st : Scanner) : Except Fail Scanner :=
  match advance st with
  | .error f => .error f
  | .ok (c, st) =>
    if c = '(' then add_token st .LeftParen
    else if c = ')' then add_token st .RightParen
    else if c = '{' then add_token st .LeftBrace
    else if c = '}' then add_token st .RightBrace
    else if c = ',' then add_token st .Comma
    else if c = '.' then add_token st .Dot
    else if c = '-' then add_token st .Minus
    else if c = '+' then add_token st .Plus
    else if c = ';' then add_token st .Semicolon
    else if c = '*' then add_token st .Star
    else if c = '!' then
      match match_char st '=' with
      | (true, st) => add_token st .BangEqual
      | (false, st) => add_token st .Bang
    else if c = '=' then
      match match_char st '=' with
      | (true, st) => add_token st .EqualEqual
      | (false, st) => add_token st .Equal
    else if c = '<' then
      match match_char st '=' with
      | (true, st) => add_token st .LessEqual
      | (false, st) => add_token st .Less
    else if c = '>' then
      match match_char st '=' with
      | (true, st) => add_token st .GreaterEqual
      | (false, st) => add_token st .Greater
    else if c = '/' then
      match match_char st '/' with
      | (true, st) => commentLoop fuel st
      | (false, st) => add_token st .Slash
    else if c = ' ' || c = '\r' || c = '\t' then .ok st
    else if c = '\n' then .ok { st with line := st.line + 1 }
    else if c = '"' then stringScan fuel st
    else if '0' ≤ c && c ≤ '9' then number fuel st
    else if ('a' ≤ c && c ≤ 'z') || ('A' ≤ c && c ≤ 'Z') || c = '_' then
      identifier fuel st
    else .error (.err (.UnexpectedCharacter c))

/-- The loop of `Scanner::scan_tokens`:
`while !self.is_at_end() { self.start = self.current; self.scan_token()?; }`. -/
def scanLoop : Nat → Scanner → Except Fail Scanner
  | 0, _ => .error .fuelOut
  | fuel + 1, st =>
    if is_at_end st then .ok st
    else
      match scan_token fuel { st with start := st.current } with
      | .error f => .error f
      | .ok st => scanLoop fuel st

/-- `Scanner::new` followed by `Scanner::scan_tokens`: run the loop from
the initial state and append the terminal Eof token (empty lexeme and
literal, current line).  The fuel `byteLen source + 1` is proved sufficient
below (the scan consumes at least one character per iteration). -/
def scan_tokens (source : List Char) : Except Fail (List Token) :=
  match scanLoop (byteLen source + 1) ⟨source, [], 0, 0, 1⟩ with
  | .error f => .error f
  | .ok st => .ok (st.tokens ++ [⟨.Eof, [], [], st.line⟩])

/-- Decidable equality of scan results (used only to state and check
concrete runs of the scanner). -/
instance {ε α : Type} [DecidableEq ε] [DecidableEq α] : DecidableEq (Except ε α) :=
  fun a b =>
    match a, b with
    | .ok x, .ok y =>
      if h : x = y then .isTrue (by rw [h])
      else .isFalse (fun hh => h (Except.ok.inj hh))
    | .error x, .error y =>
      if h : x = y then .isTrue (by rw [h])
      else .isFalse (fun hh => h (Except.error.inj hh))
    | .ok _, .error _ => .isFalse (fun hh => Except.noConfusion hh)
    | .error _, .ok _ => .isFalse (fun hh => Except.noConfusion hh)

/-- The span of characters from index `a` (inclusive) to `b` (exclusive).
On ASCII sources this is what `byteSlice s a b` returns. -/
def sspan (s : List Char) (a b : Nat) : List Char :=
  (s.drop a).take (b - a)

/-- What one successful `scan_token` call does to the state, seen from a
state whose lexeme pointer has just been reset (`start = current`): the
source and `start` are untouched, at least one character is consumed (and
never past the end), the line counter grows by the newlines of the consumed
span, and either no token or exactly one non-Eof token is appended, whose
lexeme is the consumed span and whose line is the line counter at emission
time. -/
def StepProps (st st' : Scanner) : Prop :=
  st'.source = st.source ∧
  st'.start = st.start ∧
  st.current < st'.current ∧
  st'.current ≤ st.source.length ∧
  st'.line = st.line + countNL (sspan st.source st.current st'.current) ∧
  (st'.tokens = st.tokens ∨
    ∃ t, st'.tokens = st.tokens ++ [t] ∧
      t.lexeme = sspan st.source st.start st'.current ∧
      t.line = st'.line ∧ t.ttype ≠ .Eof)

/-- `Trace l text toks l'`: scanning `text` starting on line `l` produces
exactly the tokens `toks` (in order) and ends on line `l'`, consuming
`text` as an alternation of skipped spans and token lexemes; each token is
stamped with the line counter at the end of its own lexeme, and no token is
Eof. -/
inductive Trace : Nat → List Char → List Token → Nat → Prop where
  | done (l : Nat) : Trace l [] [] l
  | skip (l : Nat) (s text : List Char) (toks : List Token) (l' : Nat) :
      Trace (l + countNL s) text toks l' → Trace l (s ++ text) toks l'
  | tok (l : Nat) (s text : List Char) (t : Token) (toks : List Token) (l' : Nat) :
      t.lexeme = s → t.line = l + countNL s → t.ttype ≠ .Eof →
      Trace (l + countNL s) text toks l' → Trace l (s ++ text) (t :: toks) l'

/-- Interleave skipped spans with token lexemes: with one more skip than
tokens, `weave [s0, s1, ..., sn] [t1, ..., tn] = s0 ++ t1.lexeme ++ s1 ++ ... ++ tn.lexeme ++ sn`. -/
def weave : List (List Char) → List Token → List Char
  | [], _ => []
  | s :: _, [] => s
  | s :: ss, t :: ts => s ++ t.lexeme ++ weave ss ts

/-- The 52 ASCII letters accepted by the identifier-start range patterns
`'a'..='z' | 'A'..='Z'` of `scan_token` (used to state a claim about every
letter pair). -/
def asciiLetters : List Char :=
  ("abcdefghijklmnopqrstuvwxyzABCDEFGHIJKLMNOPQRSTUVWXYZ").toList

/-- The sixteen reserved words, in the order of the match in
`Scanner::identifier`. -/
def kwList : List (List Char) :=
  [("and").toList, ("class").toList, ("else").toList, ("false").toList,
   ("for").toList, ("fun").toList, ("if").toList, ("nil").toList,
   ("or").toList, ("print").toList, ("return").toList, ("super").toList,
   ("this").toList, ("true").toList, ("var").toList, ("while").toList]

/-! ### Byte-length and slicing facts -/

theorem csize_pos (c : Char) : 1 ≤ csize c := by
  unfold csize
  split
  · exact le_refl 1
  · split
    · exact Nat.one_le_iff_ne_zero.mpr (by decide)
    · split
      · exact Nat.one_le_iff_ne_zero.mpr (by decide)
      · exact Nat.one_le_iff_ne_zero.mpr (by decide)

theorem csize_of_ascii (c : Char) (h : c.toNat < 0x80) : csize c = 1 := by
  unfold csize
  rw [if_pos h]

theorem length_le_byteLen (s : List Char) : s.length ≤ byteLen s := by
  induction s with
  | nil => simp [byteLen]
  | cons c t ih =>
    simp only [byteLen, List.map_cons, List.sum_cons, List.length_cons]
    have := csize_pos c
    unfold byteLen at ih
    omega

theorem byteLen_of_ascii (s : List Char) (h : allASCII s = true) :
    byteLen s = s.length := by
  induction s with
  | nil => simp [byteLen]
  | cons c t ih =>
    simp only [allASCII, List.all_cons, Bool.and_eq_true] at h
    simp only [byteLen, List.map_cons, List.sum_cons, List.length_cons]
    rw [csize_of_ascii c (by simpa using h.1)]
    unfold byteLen at ih
    rw [ih (by simpa [allASCII] using h.2)]
    omega

theorem ascii_of_byteLen_eq (s : List Char) (h : byteLen s = s.length) :
    allASCII s = true := by
  induction s with
  | nil => simp [allASCII]
  | cons c t ih =>
    simp only [byteLen, List.map_cons, List.sum_cons, List.length_cons] at h
    have h1 := csize_pos c
    have h2 := length_le_byteLen t
    unfold byteLen at h2 ih
    have hc : csize c = 1 := by omega
    simp only [allASCII, List.all_cons, Bool.and_eq_true]
    refine ⟨?_, ih (by omega)⟩
    by_contra hcc
    simp only [decide_eq_true_eq] at hcc
    unfold csize at hc
    rw [if_neg hcc] at hc
    by_cases h800 : c.toNat < 0x800
    · rw [if_pos h800] at hc
      omega
    · rw [if_neg h800] at hc
      by_cases h10000 : c.toNat < 0x10000
      · rw [if_pos h10000] at hc
        omega
      · rw [if_neg h10000] at hc
        omega

theorem allASCII_drop (s : List Char) (n : Nat) (h : allASCII s = true) :
    allASCII (s.drop n) = true := by
  simp only [allASCII, List.all_eq_true] at h ⊢
  exact fun c hc => h c (List.mem_of_mem_drop hc)

theorem dropBytes_of_ascii (s : List Char) (a : Nat) (hA : allASCII s = true)
    (h : a ≤ s.length) : dropBytes s a = some (s.drop a) := by
  induction a generalizing s with
  | zero => simp [dropBytes]
  | succ n ih =>
    cases s with
    | nil => simp at h
    | cons c t =>
      simp only [allASCII, List.all_cons, Bool.and_eq_true, decide_eq_true_eq] at hA
      have hc : csize c = 1 := csize_of_ascii c hA.1
      simp only [dropBytes, hc]
      rw [if_pos (by omega)]
      have : n + 1 - 1 = n := by omega
      rw [this]
      simp only [List.length_cons] at h
      rw [ih t (by simpa [allASCII] using hA.2) (by omega)]
      rfl

theorem takeBytes_of_ascii (s : List Char) (a : Nat) (hA : allASCII s = true)
    (h : a ≤ s.length) : takeBytes s a = some (s.take a) := by
  induction a generalizing s with
  | zero => simp [takeBytes]
  | succ n ih =>
    cases s with
    | nil => simp at h
    | cons c t =>
      simp only [allASCII, List.all_cons, Bool.and_eq_true, decide_eq_true_eq] at hA
      have hc : csize c = 1 := csize_of_ascii c hA.1
      simp only [takeBytes, hc]
      rw [if_pos (by omega)]
      have : n + 1 - 1 = n := by omega
      rw [this]
      simp only [List.length_cons] at h
      rw [ih t (by simpa [allASCII] using hA.2) (by omega)]
      rfl

theorem byteSlice_of_ascii (s : List Char) (a b : Nat) (hA : allASCII s = true)
    (hab : a ≤ b) (hb : b ≤ s.length) :
    byteSlice s a b = some (sspan s a b) := by
  unfold byteSlice
  rw [if_pos hab, dropBytes_of_ascii s a hA (by omega)]
  simp only [Option.some_bind]
  rw [takeBytes_of_ascii (s.drop a) (b - a) (allASCII_drop s a hA)
    (by simp [List.length_drop]; omega)]
  rfl

/-! ### Span facts -/

theorem sspan_append (s : List Char) (a b c : Nat) (hab : a ≤ b) (hbc : b ≤ c) :
    sspan s a b ++ sspan s b c = sspan s a c := by
  unfold sspan
  have h1 : c - a = (b - a) + (c - b) := by omega
  rw [h1, List.take_add, List.drop_drop, Nat.add_sub_cancel' hab]

theorem sspan_nil (s : List Char) (a : Nat) : sspan s a a = [] := by
  simp [sspan]

theorem sspan_single (s : List Char) (n : Nat) (c : Char)
    (h : s.get? n = some c) : sspan s n (n + 1) = [c] := by
  unfold sspan
  have hn : n < s.length := (List.get?_eq_some.mp h).1
  have : s.drop n = c :: s.drop (n + 1) := by
    rw [List.drop_eq_getElem_cons hn]
    congr 1
    have := (List.get?_eq_some.mp h).2
    simp only [List.get_eq_getElem] at this
    simpa using this
  rw [this]
  simp

theorem mem_sspan (s : List Char) (a b i : Nat) (c : Char)
    (ha : a ≤ i) (hb : i < b) (h : s.get? i = some c) : c ∈ sspan s a b := by
  unfold sspan
  have h1 : (s.drop a).get? (i - a) = some c := by
    rw [List.get?_drop]
    have : a + (i - a) = i := by omega
    rw [this]
    exact h
  have h2 : ((s.drop a).take (b - a)).get? (i - a) = some c := by
    rw [List.get?_take (by omega)]
    exact h1
  exact List.get?_mem h2

theorem countNL_append (s t : List Char) :
    countNL (s ++ t) = countNL s + countNL t := by
  simp [countNL, List.count_append]

theorem countNL_eq_zero (s : List Char) (h : ∀ c ∈ s, c ≠ '\n') :
    countNL s = 0 := by
  simp only [countNL, List.count_eq_zero]
  intro hmem
  exact h '\n' hmem rfl

theorem drop_eq_sspan_append (s : List Char) (a b : Nat) (hab : a ≤ b) :
    s.drop a = sspan s a b ++ s.drop b := by
  unfold sspan
  conv_lhs => rw [← List.take_append_drop (b - a) (s.drop a)]
  rw [List.drop_drop]
  congr 1
  congr 1
  omega

/-! ### Loop characterizations (ASCII sources) -/

theorem identLoop_spec (fuel : Nat) (st : Scanner) (hA : allASCII st.source = true)
    (hc : st.current ≤ st.source.length)
    (hf : st.source.length - st.current < fuel) :
    ∃ c2, identLoop fuel st = .ok { st with current := c2 } ∧
      st.current ≤ c2 ∧ c2 ≤ st.source.length ∧
      ∀ ch ∈ sspan st.source st.current c2, rustIsAlphanumeric ch = true := by
  induction fuel generalizing st with
  | zero => omega
  | succ n ih =>
    unfold identLoop
    by_cases hend : byteLen st.source ≤ st.current
    · rw [if_pos hend]
      refine ⟨st.current, rfl, le_refl _, hc, ?_⟩
      rw [sspan_nil]
      intro ch hch
      simp at hch
    · rw [if_neg hend]
      rw [byteLen_of_ascii _ hA] at hend
      push_neg at hend
      cases hg : st.source.get? st.current with
      | none =>
        rw [List.get?_eq_none] at hg
        omega
      | some ch =>
        dsimp only
        by_cases halnum : rustIsAlphanumeric ch = true
        · rw [if_pos halnum]
          obtain ⟨c2, hrun, h1, h2, h3⟩ :=
            ih { st with current := st.current + 1 } hA
              (by simpa using hend) (by simp; omega)
          dsimp only at hrun h1 h2 h3
          refine ⟨c2, hrun, by omega, h2, ?_⟩
          have hsp : sspan st.source st.current c2 =
              [ch] ++ sspan st.source (st.current + 1) c2 := by
            rw [← sspan_single st.source st.current ch hg,
              sspan_append st.source st.current (st.current + 1) c2
                (by omega) (by simpa using h1)]
          rw [hsp]
          intro x hx
          rcases List.mem_append.mp hx with hx | hx
          · simp at hx
            rw [hx]
            exact halnum
          · exact h3 x (by simpa using hx)
        · rw [if_neg halnum]
          refine ⟨st.current, rfl, le_refl _, hc, ?_⟩
          rw [sspan_nil]
          intro x hx
          simp at hx

theorem countNL_single (c : Char) :
    countNL [c] = if c = '\n' then 1 else 0 := by
  by_cases h : c = '\n'
  · simp [countNL, h]
  · rw [if_neg h]
    rw [countNL, List.count_eq_zero]
    intro hmem
    simp at hmem
    exact h hmem.symm

theorem digitsLoop_spec (fuel : Nat) (st : Scanner) (hA : allASCII st.source = true)
    (hc : st.current ≤ st.source.length)
    (hf : st.source.length - st.current < fuel) :
    ∃ c2, digitsLoop fuel st = .ok { st with current := c2 } ∧
      st.current ≤ c2 ∧ c2 ≤ st.source.length ∧
      ∀ ch ∈ sspan st.source st.current c2, rustIsDigit ch = true := by
  induction fuel generalizing st with
  | zero => omega
  | succ n ih =>
    unfold digitsLoop
    by_cases hend : byteLen st.source ≤ st.current
    · rw [if_pos hend]
      refine ⟨st.current, rfl, le_refl _, hc, ?_⟩
      rw [sspan_nil]
      intro ch hch
      simp at hch
    · rw [if_neg hend]
      rw [byteLen_of_ascii _ hA] at hend
      push_neg at hend
      cases hg : st.source.get? st.current with
      | none =>
        rw [List.get?_eq_none] at hg
        omega
      | some ch =>
        dsimp only
        by_cases hdig : rustIsDigit ch = true
        · rw [if_pos hdig]
          obtain ⟨c2, hrun, h1, h2, h3⟩ :=
            ih { st with current := st.current + 1 } hA
              (by simpa using hend) (by simp; omega)
          dsimp only at hrun h1 h2 h3
          refine ⟨c2, hrun, by omega, h2, ?_⟩
          have hsp : sspan st.source st.current c2 =
              [ch] ++ sspan st.source (st.current + 1) c2 := by
            rw [← sspan_single st.source st.current ch hg,
              sspan_append st.source st.current (st.current + 1) c2
                (by omega) (by simpa using h1)]
          rw [hsp]
          intro x hx
          rcases List.mem_append.mp hx with hx | hx
          · simp at hx
            rw [hx]
            exact hdig
          · exact h3 x (by simpa using hx)
        · rw [if_neg hdig]
          refine ⟨st.current, rfl, le_refl _, hc, ?_⟩
          rw [sspan_nil]
          intro x hx
          simp at hx

theorem commentLoop_spec (fuel : Nat) (st : Scanner) (hA : allASCII st.source = true)
    (hc : st.current ≤ st.source.length)
    (hf : st.source.length - st.current < fuel) :
    ∃ c2, commentLoop fuel st = .ok { st with current := c2 } ∧
      st.current ≤ c2 ∧ c2 ≤ st.source.length ∧
      ∀ ch ∈ sspan st.source st.current c2, ch ≠ '\n' := by
  induction fuel generalizing st with
  | zero => omega
  | succ n ih =>
    unfold commentLoop
    by_cases hend : byteLen st.source ≤ st.current
    · rw [if_pos hend]
      refine ⟨st.current, rfl, le_refl _, hc, ?_⟩
      rw [sspan_nil]
      intro ch hch
      simp at hch
    · rw [if_neg hend]
      rw [byteLen_of_ascii _ hA] at hend
      push_neg at hend
      cases hg : st.source.get? st.current with
      | none =>
        rw [List.get?_eq_none] at hg
        omega
      | some ch =>
        dsimp only
        by_cases hnl : ch = '\n'
        · rw [if_pos hnl]
          refine ⟨st.current, rfl, le_refl _, hc, ?_⟩
          rw [sspan_nil]
          intro x hx
          simp at hx
        · rw [if_neg hnl]
          obtain ⟨c2, hrun, h1, h2, h3⟩ :=
            ih { st with current := st.current + 1 } hA
              (by simpa using hend) (by simp; omega)
          dsimp only at hrun h1 h2 h3
          refine ⟨c2, hrun, by omega, h2, ?_⟩
          have hsp : sspan st.source st.current c2 =
              [ch] ++ sspan st.source (st.current + 1) c2 := by
            rw [← sspan_single st.source st.current ch hg,
              sspan_append st.source st.current (st.current + 1) c2
                (by omega) (by simpa using h1)]
          rw [hsp]
          intro x hx
          rcases List.mem_append.mp hx with hx | hx
          · simp at hx
            rw [hx]
            exact hnl
          · exact h3 x (by simpa using hx)

theorem stringLoop_spec (fuel : Nat) (st : Scanner) (hA : allASCII st.source = true)
    (hc : st.current ≤ st.source.length)
    (hf : st.source.length - st.current < fuel) :
    ∃ c2 l2, stringLoop fuel st = .ok { st with current := c2, line := l2 } ∧
      st.current ≤ c2 ∧ c2 ≤ st.source.length ∧
      l2 = st.line + countNL (sspan st.source st.current c2) ∧
      (∀ ch ∈ sspan st.source st.current c2, ch ≠ '"') ∧
      (c2 = st.source.length ∨ st.source.get? c2 = some '"') := by
  induction fuel generalizing st with
  | zero => omega
  | succ n ih =>
    unfold stringLoop
    by_cases hend : byteLen st.source ≤ st.current
    · rw [if_pos hend]
      rw [byteLen_of_ascii _ hA] at hend
      refine ⟨st.current, st.line, rfl, le_refl _, hc, ?_, ?_, Or.inl (by omega)⟩
      · rw [sspan_nil]
        simp [countNL]
      · rw [sspan_nil]
        intro x hx
        simp at hx
    · rw [if_neg hend]
      rw [byteLen_of_ascii _ hA] at hend
      push_neg at hend
      cases hg : st.source.get? st.current with
      | none =>
        rw [List.get?_eq_none] at hg
        omega
      | some ch =>
        dsimp only
        by_cases hq : ch = '"'
        · rw [if_pos hq]
          refine ⟨st.current, st.line, rfl, le_refl _, hc, ?_, ?_,
            Or.inr (by rw [hg, hq])⟩
          · rw [sspan_nil]
            simp [countNL]
          · rw [sspan_nil]
            intro x hx
            simp at hx
        · rw [if_neg hq]
          obtain ⟨c2, l2, hrun, h1, h2, hl2, h3, h4⟩ :=
            ih { st with current := st.current + 1, line := if ch = '\n' then st.line + 1 else st.line } hA
              (by simpa using hend) (by simp; omega)
          dsimp only at hrun h1 h2 hl2 h3 h4
          have hsp : sspan st.source st.current c2 =
              [ch] ++ sspan st.source (st.current + 1) c2 := by
            rw [← sspan_single st.source st.current ch hg,
              sspan_append st.source st.current (st.current + 1) c2
                (by omega) (by simpa using h1)]
          refine ⟨c2, l2, hrun, by omega, h2, ?_, ?_, h4⟩
          · rw [hsp, countNL_append, countNL_single]
            by_cases hnl : ch = '\n'
            · rw [if_pos hnl] at hl2 ⊢
              omega
            · rw [if_neg hnl] at hl2 ⊢
              omega
          · rw [hsp]
            intro x hx
            rcases List.mem_append.mp hx with hx | hx
            · simp at hx
              rw [hx]
              exact hq
            · exact h3 x (by simpa using hx)

/-! ### General bounds: any successful step keeps `current` within the
character count and only ever moves it forward (no ASCII assumption). -/

/-- `current` moves forward, the source is unchanged, and `current` stays
within the character count of the source. -/
def Mono (st st' : Scanner) : Prop :=
  st'.source = st.source ∧ st.current ≤ st'.current ∧
  (st.current ≤ st.source.length → st'.current ≤ st.source.length)

theorem Mono.refl (st : Scanner) : Mono st st :=
  ⟨rfl, le_refl _, fun h => h⟩

theorem Mono.trans (a b c : Scanner) (h1 : Mono a b) (h2 : Mono b c) : Mono a c := by
  obtain ⟨s1, c1, b1⟩ := h1
  obtain ⟨s2, c2, b2⟩ := h2
  refine ⟨s2.trans s1, c1.trans c2, fun h => ?_⟩
  rw [s1] at b2
  exact b2 (b1 h)

theorem identLoop_mono (fuel : Nat) (st st' : Scanner)
    (h : identLoop fuel st = .ok st') :
    Mono st st' ∧ st'.tokens = st.tokens ∧ st'.start = st.start ∧
      st'.line = st.line := by
  induction fuel generalizing st with
  | zero => simp [identLoop] at h
  | succ n ih =>
    unfold identLoop at h
    by_cases hend : byteLen st.source ≤ st.current
    · rw [if_pos hend] at h
      cases h
      exact ⟨Mono.refl _, rfl, rfl, rfl⟩
    · rw [if_neg hend] at h
      cases hg : st.source.get? st.current with
      | none =>
        rw [hg] at h
        simp at h
      | some ch =>
        rw [hg] at h
        dsimp only at h
        have hlt : st.current < st.source.length := (List.get?_eq_some.mp hg).1
        by_cases halnum : rustIsAlphanumeric ch = true
        · rw [if_pos halnum] at h
          obtain ⟨hm, htok, hstart, hline⟩ := ih _ h
          obtain ⟨hsrc, hcur, hbound⟩ := hm
          dsimp only at hsrc hcur hbound htok hstart hline
          exact ⟨⟨hsrc, by omega, fun _ => hbound (by omega)⟩, htok, hstart, hline⟩
        · rw [if_neg halnum] at h
          cases h
          exact ⟨Mono.refl _, rfl, rfl, rfl⟩

theorem digitsLoop_mono (fuel : Nat) (st st' : Scanner)
    (h : digitsLoop fuel st = .ok st') :
    Mono st st' ∧ st'.tokens = st.tokens ∧ st'.start = st.start ∧
      st'.line = st.line := by
  induction fuel generalizing st with
  | zero => simp [digitsLoop] at h
  | succ n ih =>
    unfold digitsLoop at h
    by_cases hend : byteLen st.source ≤ st.current
    · rw [if_pos hend] at h
      cases h
      exact ⟨Mono.refl _, rfl, rfl, rfl⟩
    · rw [if_neg hend] at h
      cases hg : st.source.get? st.current with
      | none =>
        rw [hg] at h
        simp at h
      | some ch =>
        rw [hg] at h
        dsimp only at h
        have hlt : st.current < st.source.length := (List.get?_eq_some.mp hg).1
        by_cases hdig : rustIsDigit ch = true
        · rw [if_pos hdig] at h
          obtain ⟨hm, htok, hstart, hline⟩ := ih _ h
          obtain ⟨hsrc, hcur, hbound⟩ := hm
          dsimp only at hsrc hcur hbound htok hstart hline
          exact ⟨⟨hsrc, by omega, fun _ => hbound (by omega)⟩, htok, hstart, hline⟩
        · rw [if_neg hdig] at h
          cases h
          exact ⟨Mono.refl _, rfl, rfl, rfl⟩

theorem commentLoop_mono (fuel : Nat) (st st' : Scanner)
    (h : commentLoop fuel st = .ok st') :
    Mono st st' ∧ st'.tokens = st.tokens ∧ st'.start = st.start ∧
      st'.line = st.line := by
  induction fuel generalizing st with
  | zero => simp [commentLoop] at h
  | succ n ih =>
    unfold commentLoop at h
    by_cases hend : byteLen st.source ≤ st.current
    · rw [if_pos hend] at h
      cases h
      exact ⟨Mono.refl _, rfl, rfl, rfl⟩
    · rw [if_neg hend] at h
      cases hg : st.source.get? st.current with
      | none =>
        rw [hg] at h
        simp at h
      | some ch =>
        rw [hg] at h
        dsimp only at h
        have hlt : st.current < st.source.length := (List.get?_eq_some.mp hg).1
        by_cases hnl : ch = '\n'
        · rw [if_pos hnl] at h
          cases h
          exact ⟨Mono.refl _, rfl, rfl, rfl⟩
        · rw [if_neg hnl] at h
          obtain ⟨hm, htok, hstart, hline⟩ := ih _ h
          obtain ⟨hsrc, hcur, hbound⟩ := hm
          dsimp only at hsrc hcur hbound htok hstart hline
          exact ⟨⟨hsrc, by omega, fun _ => hbound (by omega)⟩, htok, hstart, hline⟩

theorem stringLoop_mono (fuel : Nat) (st st' : Scanner)
    (h : stringLoop fuel st = .ok st') :
    Mono st st' ∧ st'.tokens = st.tokens ∧ st'.start = st.start := by
  induction fuel generalizing st with
  | zero => simp [stringLoop] at h
  | succ n ih =>
    unfold stringLoop at h
    by_cases hend : byteLen st.source ≤ st.current
    · rw [if_pos hend] at h
      cases h
      exact ⟨Mono.refl _, rfl, rfl⟩
    · rw [if_neg hend] at h
      cases hg : st.source.get? st.current with
      | none =>
        rw [hg] at h
        simp at h
      | some ch =>
        rw [hg] at h
        dsimp only at h
        have hlt : st.current < st.source.length := (List.get?_eq_some.mp hg).1
        by_cases hq : ch = '"'
        · rw [if_pos hq] at h
          cases h
          exact ⟨Mono.refl _, rfl, rfl⟩
        · rw [if_neg hq] at h
          obtain ⟨hm, htok, hstart⟩ := ih _ h
          obtain ⟨hsrc, hcur, hbound⟩ := hm
          dsimp only at hsrc hcur hbound htok hstart
          exact ⟨⟨hsrc, by omega, fun _ => hbound (by omega)⟩, htok, hstart⟩

theorem advance_ok (st st' : Scanner) (c : Char)
    (h : advance st = .ok (c, st')) :
    st.source.get? st.current = some c ∧
      st' = { st with current := st.current + 1 } := by
  unfold advance at h
  cases hg : st.source.get? st.current with
  | none =>
    rw [hg] at h
    simp at h
  | some c0 =>
    rw [hg] at h
    dsimp only at h
    cases h
    exact ⟨rfl, rfl⟩

theorem advance_error (st : Scanner) (f : Fail)
    (h : advance st = .error f) :
    st.source.get? st.current = none ∧ f = .panic := by
  unfold advance at h
  cases hg : st.source.get? st.current with
  | none =>
    rw [hg] at h
    dsimp only at h
    cases h
    exact ⟨rfl, rfl⟩
  | some c0 =>
    rw [hg] at h
    simp at h

theorem match_char_state (st st' : Scanner) (e : Char) (b : Bool)
    (h : match_char st e = (b, st')) :
    st'.source = st.source ∧ st'.tokens = st.tokens ∧ st'.start = st.start ∧
      st'.line = st.line ∧
      (st' = st ∨ (st'.current = st.current + 1 ∧ st.current < st.source.length)) := by
  unfold match_char at h
  by_cases hend : is_at_end st
  · rw [if_pos hend] at h
    cases h
    exact ⟨rfl, rfl, rfl, rfl, Or.inl rfl⟩
  · rw [if_neg hend] at h
    by_cases hg : st.source.get? st.current = some e
    · rw [if_pos hg] at h
      cases h
      exact ⟨rfl, rfl, rfl, rfl, Or.inr ⟨rfl, (List.get?_eq_some.mp hg).1⟩⟩
    · rw [if_neg hg] at h
      cases h
      exact ⟨rfl, rfl, rfl, rfl, Or.inl rfl⟩

theorem add_token_literal_state (st st' : Scanner) (tt : TokenType)
    (lit : List Char) (h : add_token_literal st tt lit = .ok st') :
    st'.source = st.source ∧ st'.current = st.current ∧ st'.start = st.start ∧
      st'.line = st.line ∧
      ∃ lex, st'.tokens = st.tokens ++ [⟨tt, lex, lit, st.line⟩] := by
  unfold add_token_literal at h
  cases hs : byteSlice st.source st.start st.current with
  | none =>
    rw [hs] at h
    simp at h
  | some lex =>
    rw [hs] at h
    dsimp only at h
    cases h
    exact ⟨rfl, rfl, rfl, rfl, lex, rfl⟩

theorem stringScan_mono (fuel : Nat) (st st' : Scanner)
    (h : stringScan fuel st = .ok st') : Mono st st' := by
  unfold stringScan at h
  cases hrun : stringLoop fuel st with
  | error f =>
    rw [hrun] at h
    simp at h
  | ok st1 =>
    rw [hrun] at h
    dsimp only at h
    obtain ⟨⟨hsrc1, hcur1, hb1⟩, _, _⟩ := stringLoop_mono fuel st st1 hrun
    by_cases hend : is_at_end st1
    · rw [if_pos hend] at h
      simp at h
    · rw [if_neg hend] at h
      cases hadv : advance st1 with
      | error f =>
        rw [hadv] at h
        simp at h
      | ok pr =>
        obtain ⟨c2, st2⟩ := pr
        rw [hadv] at h
        dsimp only at h
        obtain ⟨hg2, hst2⟩ := advance_ok st1 st2 c2 hadv
        have hlt1 : st1.current < st1.source.length := (List.get?_eq_some.mp hg2).1
        cases hsl : byteSlice st2.source (st2.start + 1) (st2.current - 1) with
        | none =>
          rw [hsl] at h
          simp at h
        | some lit =>
          rw [hsl] at h
          obtain ⟨hsrc3, hcur3, hstart3, hline3, _⟩ :=
            add_token_literal_state st2 st' .String lit h
          rw [hst2] at hsrc3 hcur3
          dsimp only at hsrc3 hcur3
          rw [hsrc1] at hlt1
          exact ⟨by rw [hsrc3, hsrc1], by omega, fun hle => by omega⟩

theorem number_mono (fuel : Nat) (st st' : Scanner)
    (h : number fuel st = .ok st') : Mono st st' := by
  unfold number at h
  cases hd : digitsLoop fuel st with
  | error f =>
    rw [hd] at h
    simp at h
  | ok st1 =>
    rw [hd] at h
    dsimp only at h
    obtain ⟨hm1, _, _, _⟩ := digitsLoop_mono fuel st st1 hd
    cases hp : peek st1 with
    | error f =>
      rw [hp] at h
      simp at h
    | ok p =>
      rw [hp] at h
      dsimp only at h
      have hrest : ∀ st2, (match byteSlice st2.source st2.start st2.current with
          | none => Except.error Fail.panic
          | some lit => add_token_literal st2 TokenType.Number lit) =
            Except.ok st' → Mono st2 st' := by
        intro st2 hh
        cases hsl : byteSlice st2.source st2.start st2.current with
        | none =>
          rw [hsl] at hh
          simp at hh
        | some lit =>
          rw [hsl] at hh
          dsimp only at hh
          obtain ⟨hsrc, hcur, _, _, _⟩ :=
            add_token_literal_state st2 st' .Number lit hh
          exact ⟨hsrc, by omega, fun hle => by omega⟩
      by_cases hdot : p = '.'
      · rw [if_pos hdot] at h
        cases hpn : peek_next st1 with
        | error f =>
          rw [hpn] at h
          simp at h
        | ok pn =>
          rw [hpn] at h
          dsimp only at h
          by_cases hdig : rustIsDigit pn = true
          · rw [if_pos hdig] at h
            cases hadv : advance st1 with
            | error f =>
              rw [hadv] at h
              simp at h
            | ok pr =>
              obtain ⟨c2, st2⟩ := pr
              rw [hadv] at h
              dsimp only at h
              obtain ⟨hg2, hst2⟩ := advance_ok st1 st2 c2 hadv
              have hlt1 : st1.current < st1.source.length :=
                (List.get?_eq_some.mp hg2).1
              cases hd2 : digitsLoop fuel st2 with
              | error f =>
                rw [hd2] at h
                simp at h
              | ok st3 =>
                rw [hd2] at h
                dsimp only at h
                obtain ⟨hm3, _, _, _⟩ := digitsLoop_mono fuel st2 st3 hd2
                have hm2 : Mono st1 st2 := by
                  rw [hst2]
                  refine ⟨rfl, Nat.le_succ st1.current, fun hle => ?_⟩
                  show st1.current + 1 ≤ st1.source.length
                  omega
                exact Mono.trans _ _ _ hm1
                  (Mono.trans _ _ _ hm2 (Mono.trans _ _ _ hm3 (hrest st3 h)))
          · rw [if_neg hdig] at h
            dsimp only at h
            exact Mono.trans _ _ _ hm1 (hrest st1 h)
      · rw [if_neg hdot] at h
        dsimp only at h
        exact Mono.trans _ _ _ hm1 (hrest st1 h)

theorem identifier_mono (fuel : Nat) (st st' : Scanner)
    (h : identifier fuel st = .ok st') : Mono st st' := by
  unfold identifier at h
  cases hrun : identLoop fuel st with
  | error f =>
    rw [hrun] at h
    simp at h
  | ok st1 =>
    rw [hrun] at h
    dsimp only at h
    obtain ⟨hm1, _, _, _⟩ := identLoop_mono fuel st st1 hrun
    cases hsl : byteSlice st1.source st1.start st1.current with
    | none =>
      rw [hsl] at h
      simp at h
    | some text =>
      rw [hsl] at h
      dsimp only at h
      have hfin : ∀ tt lit, add_token_literal st1 tt lit = .ok st' → Mono st1 st' := by
        intro tt lit hh
        obtain ⟨hsrc, hcur, _, _, _⟩ := add_token_literal_state st1 st' tt lit hh
        exact ⟨hsrc, by omega, fun hle => by omega⟩
      cases hk : keywordType text with
      | some tt =>
        rw [hk] at h
        dsimp only at h
        exact Mono.trans _ _ _ hm1 (hfin tt [] h)
      | none =>
        rw [hk] at h
        dsimp only at h
        exact Mono.trans _ _ _ hm1 (hfin .Identifier text h)

theorem scan_token_mono (fuel : Nat) (st st' : Scanner)
    (h : scan_token fuel st = .ok st') :
    st'.source = st.source ∧ st.current < st'.current ∧
      (st.current ≤ st.source.length → st'.current ≤ st.source.length) := by
  unfold scan_token at h
  cases hadv : advance st with
  | error f =>
    rw [hadv] at h
    simp at h
  | ok pr =>
    obtain ⟨c, st1⟩ := pr
    rw [hadv] at h
    dsimp only at h
    obtain ⟨hg, hst1⟩ := advance_ok st st1 c hadv
    have hlt : st.current < st.source.length := (List.get?_eq_some.mp hg).1
    have hm1 : Mono st st1 ∧ st1.current = st.current + 1 := by
      rw [hst1]
      exact ⟨⟨rfl, Nat.le_succ st.current, fun _ => by
        show st.current + 1 ≤ st.source.length
        omega⟩, rfl⟩
    have hdone : Mono st1 st' → st'.source = st.source ∧ st.current < st'.current ∧
        (st.current ≤ st.source.length → st'.current ≤ st.source.length) := by
      intro hm2
      have := Mono.trans _ _ _ hm1.1 hm2
      obtain ⟨hs, hc, hb⟩ := this
      obtain ⟨hs2, hc2, hb2⟩ := hm2
      refine ⟨hs, ?_, hb⟩
      have h1 := hm1.2
      omega
    have haddm : ∀ st2 tt lit, add_token_literal st2 tt lit = .ok st' → Mono st2 st' := by
      intro st2 tt lit hh
      obtain ⟨hsrc, hcur, _, _, _⟩ := add_token_literal_state st2 st' tt lit hh
      exact ⟨hsrc, by omega, fun hle => by omega⟩
    have hmc : ∀ (e : Char) (b : Bool) (st2 : Scanner), match_char st1 e = (b, st2) →
        Mono st1 st2 := by
      intro e b st2 hh
      obtain ⟨hsrc, _, _, _, hcase⟩ := match_char_state st1 st2 e b hh
      rcases hcase with hcase | hcase
      · rw [hcase]
        exact Mono.refl st1
      · exact ⟨hsrc, by omega, fun hle => by omega⟩
    -- dispatch over the character classes
    by_cases h1 : c = '('
    · rw [if_pos h1] at h
      exact hdone (haddm st1 _ _ h)
    · rw [if_neg h1] at h
      by_cases h2 : c = ')'
      · rw [if_pos h2] at h
        exact hdone (haddm st1 _ _ h)
      · rw [if_neg h2] at h
        by_cases h3 : c = '{'
        · rw [if_pos h3] at h
          exact hdone (haddm st1 _ _ h)
        · rw [if_neg h3] at h
          by_cases h4 : c = '}'
          · rw [if_pos h4] at h
            exact hdone (haddm st1 _ _ h)
          · rw [if_neg h4] at h
            by_cases h5 : c = ','
            · rw [if_pos h5] at h
              exact hdone (haddm st1 _ _ h)
            · rw [if_neg h5] at h
              by_cases h6 : c = '.'
              · rw [if_pos h6] at h
                exact hdone (haddm st1 _ _ h)
              · rw [if_neg h6] at h
                by_cases h7 : c = '-'
                · rw [if_pos h7] at h
                  exact hdone (haddm st1 _ _ h)
                · rw [if_neg h7] at h
                  by_cases h8 : c = '+'
                  · rw [if_pos h8] at h
                    exact hdone (haddm st1 _ _ h)
                  · rw [if_neg h8] at h
                    by_cases h9 : c = ';'
                    · rw [if_pos h9] at h
                      exact hdone (haddm st1 _ _ h)
                    · rw [if_neg h9] at h
                      by_cases h10 : c = '*'
                      · rw [if_pos h10] at h
                        exact hdone (haddm st1 _ _ h)
                      · rw [if_neg h10] at h
                        by_cases h11 : c = '!'
                        · rw [if_pos h11] at h
                          cases hmch : match_char st1 '=' with
                          | mk b st2 =>
                            rw [hmch] at h
                            cases b <;> dsimp only at h <;>
                              exact hdone (Mono.trans _ _ _ (hmc _ _ _ hmch) (haddm st2 _ _ h))
                        · rw [if_neg h11] at h
                          by_cases h12 : c = '='
                          · rw [if_pos h12] at h
                            cases hmch : match_char st1 '=' with
                            | mk b st2 =>
                              rw [hmch] at h
                              cases b <;> dsimp only at h <;>
                                exact hdone (Mono.trans _ _ _ (hmc _ _ _ hmch) (haddm st2 _ _ h))
                          · rw [if_neg h12] at h
                            by_cases h13 : c = '<'
                            · rw [if_pos h13] at h
                              cases hmch : match_char st1 '=' with
                              | mk b st2 =>
                                rw [hmch] at h
                                cases b <;> dsimp only at h <;>
                                  exact hdone (Mono.trans _ _ _ (hmc _ _ _ hmch) (haddm st2 _ _ h))
                            · rw [if_neg h13] at h
                              by_cases h14 : c = '>'
                              · rw [if_pos h14] at h
                                cases hmch : match_char st1 '=' with
                                | mk b st2 =>
                                  rw [hmch] at h
                                  cases b <;> dsimp only at h <;>
                                    exact hdone (Mono.trans _ _ _ (hmc _ _ _ hmch) (haddm st2 _ _ h))
                              · rw [if_neg h14] at h
                                by_cases h15 : c = '/'
                                · rw [if_pos h15] at h
                                  cases hmch : match_char st1 '/' with
                                  | mk b st2 =>
                                    rw [hmch] at h
                                    cases b <;> dsimp only at h
                                    · exact hdone (Mono.trans _ _ _ (hmc _ _ _ hmch) (haddm st2 _ _ h))
                                    · obtain ⟨hm3, _, _, _⟩ := commentLoop_mono fuel st2 st' h
                                      exact hdone (Mono.trans _ _ _ (hmc _ _ _ hmch) hm3)
                                · rw [if_neg h15] at h
                                  by_cases h16 : (c = ' ' || c = '\r' || c = '\t') = true
                                  · rw [if_pos h16] at h
                                    cases h
                                    exact hdone (Mono.refl _)
                                  · rw [if_neg h16] at h
                                    by_cases h17 : c = '\n'
                                    · rw [if_pos h17] at h
                                      cases h
                                      exact hdone ⟨rfl, le_refl _, fun hh => hh⟩
                                    · rw [if_neg h17] at h
                                      by_cases h18 : c = '"'
                                      · rw [if_pos h18] at h
                                        exact hdone (stringScan_mono fuel st1 st' h)
                                      · rw [if_neg h18] at h
                                        by_cases h19 : ('0' ≤ c && c ≤ '9') = true
                                        · rw [if_pos h19] at h
                                          exact hdone (number_mono fuel st1 st' h)
                                        · rw [if_neg h19] at h
                                          by_cases h20 : (('a' ≤ c && c ≤ 'z') || ('A' ≤ c && c ≤ 'Z') || c = '_') = true
                                          · rw [if_pos h20] at h
                                            exact hdone (identifier_mono fuel st1 st' h)
                                          · rw [if_neg h20] at h
                                            simp at h

theorem scanLoop_mono (fuel : Nat) (st st' : Scanner)
    (h : scanLoop fuel st = .ok st') :
    st'.source = st.source ∧ byteLen st'.source ≤ st'.current ∧
      (st.current ≤ st.source.length → st'.current ≤ st.source.length) := by
  induction fuel generalizing st with
  | zero => simp [scanLoop] at h
  | succ n ih =>
    unfold scanLoop at h
    by_cases hend : is_at_end st
    · rw [if_pos hend] at h
      cases h
      unfold is_at_end at hend
      simp only [decide_eq_true_eq] at hend
      exact ⟨rfl, hend, fun hh => hh⟩
    · rw [if_neg hend] at h
      cases hstep : scan_token n { st with start := st.current } with
      | error f =>
        rw [hstep] at h
        simp at h
      | ok st1 =>
        rw [hstep] at h
        dsimp only at h
        obtain ⟨hsrc1, hcur1, hb1⟩ := scan_token_mono n _ st1 hstep
        dsimp only at hsrc1 hcur1 hb1
        obtain ⟨hsrc2, hbyte2, hb2⟩ := ih st1 h
        rw [hsrc1] at hsrc2
        refine ⟨hsrc2, hbyte2, fun hle => ?_⟩
        rw [hsrc1] at hb2
        exact hb2 (hb1 hle)

/-- A successful scan forces the source to be pure ASCII: the loop only
stops once `current` (a character count) has reached the byte length, and
`current` never exceeds the character count, so the two lengths agree. -/
theorem scan_ok_ascii (src : List Char) (toks : List Token)
    (h : scan_tokens src = .ok toks) : allASCII src = true := by
  unfold scan_tokens at h
  cases hrun : scanLoop (byteLen src + 1) ⟨src, [], 0, 0, 1⟩ with
  | error f =>
    rw [hrun] at h
    simp at h
  | ok st' =>
    obtain ⟨hsrc, hbyte, hb⟩ := scanLoop_mono _ _ _ hrun
    dsimp only at hsrc hb
    rw [hsrc] at hbyte
    have hcur : st'.current ≤ src.length := hb (by omega)
    have := length_le_byteLen src
    exact ascii_of_byteLen_eq src (by omega)

/-! ### Exact evaluation of the primitives on ASCII sources -/

theorem peek_ascii_end (st : Scanner) (hA : allASCII st.source = true)
    (h : st.source.length ≤ st.current) : peek st = .ok '\x00' := by
  unfold peek is_at_end
  rw [byteLen_of_ascii _ hA]
  rw [if_pos (by simpa using h)]

theorem peek_ascii_mid (st : Scanner) (c : Char)
    (hA : allASCII st.source = true)
    (h : st.source.get? st.current = some c) : peek st = .ok c := by
  unfold peek is_at_end
  rw [byteLen_of_ascii _ hA]
  have hlt : st.current < st.source.length := (List.get?_eq_some.mp h).1
  rw [if_neg (by simpa using Nat.not_le.mpr hlt), h]

theorem peek_next_ascii_end (st : Scanner) (hA : allASCII st.source = true)
    (h : st.source.length ≤ st.current + 1) : peek_next st = .ok '\x00' := by
  unfold peek_next
  rw [byteLen_of_ascii _ hA]
  rw [if_pos h]

theorem peek_next_ascii_mid (st : Scanner) (c : Char)
    (hA : allASCII st.source = true)
    (h : st.source.get? (st.current + 1) = some c) : peek_next st = .ok c := by
  unfold peek_next
  rw [byteLen_of_ascii _ hA]
  have hlt : st.current + 1 < st.source.length := (List.get?_eq_some.mp h).1
  rw [if_neg (by omega), h]

theorem advance_ascii (st : Scanner) (c : Char)
    (h : st.source.get? st.current = some c) :
    advance st = .ok (c, { st with current := st.current + 1 }) := by
  unfold advance
  rw [h]

theorem add_token_literal_spec (st : Scanner) (tt : TokenType) (lit : List Char)
    (hA : allASCII st.source = true) (h1 : st.start ≤ st.current)
    (h2 : st.current ≤ st.source.length) :
    add_token_literal st tt lit =
      .ok { st with tokens :=
        st.tokens ++ [⟨tt, sspan st.source st.start st.current, lit, st.line⟩] } := by
  unfold add_token_literal
  rw [byteSlice_of_ascii st.source st.start st.current hA h1 h2]

/-- Emitting one token after having consumed the span `[current, m)` with no
newline in it yields a `StepProps` step. -/
theorem emit_span (st : Scanner) (m : Nat) (tt : TokenType) (lit : List Char)
    (hA : allASCII st.source = true) (hsc : st.start = st.current)
    (h1 : st.current < m) (h2 : m ≤ st.source.length)
    (hnl : countNL (sspan st.source st.current m) = 0) (htt : tt ≠ .Eof) :
    ∃ st', add_token_literal { st with current := m } tt lit = .ok st' ∧
      StepProps st st' := by
  refine ⟨_, add_token_literal_spec { st with current := m } tt lit
    (by simpa using hA) (by dsimp only; omega) (by simpa using h2), ?_⟩
  refine ⟨rfl, rfl, h1, h2, ?_, Or.inr ⟨_, rfl, rfl, rfl, htt⟩⟩
  dsimp only
  omega

/-- Consuming the span `[current, m)` with no newline and emitting nothing
is a `StepProps` step. -/
theorem skip_span (st : Scanner) (m : Nat)
    (h1 : st.current < m) (h2 : m ≤ st.source.length)
    (hnl : countNL (sspan st.source st.current m) = 0) :
    StepProps st { st with current := m } := by
  refine ⟨rfl, rfl, h1, h2, ?_, Or.inl rfl⟩
  dsimp only
  omega

theorem rustIsDigit_ne_nl (c : Char) (h : rustIsDigit c = true) : c ≠ '\n' := by
  intro hc
  subst hc
  exact absurd h (by decide)

theorem rustIsAlphanumeric_ne_nl (c : Char) (h : rustIsAlphanumeric c = true) :
    c ≠ '\n' := by
  intro hc
  subst hc
  exact absurd h (by decide)

theorem number_spec (fuel : Nat) (st : Scanner) (hA : allASCII st.source = true)
    (hstart : st.start ≤ st.current) (hcur : st.current ≤ st.source.length)
    (hf : st.source.length - st.current < fuel) :
    ∃ m, number fuel st = .ok { st with current := m, tokens := st.tokens ++ [⟨.Number, sspan st.source st.start m, sspan st.source st.start m, st.line⟩] } ∧
      st.current ≤ m ∧ m ≤ st.source.length ∧
      ∀ ch ∈ sspan st.source st.current m, ch ≠ '\n' := by
  have hfin : ∀ m : Nat, st.start ≤ m → m ≤ st.source.length →
      (match byteSlice st.source st.start m with
        | none => Except.error Fail.panic
        | some lit => add_token_literal { st with current := m } TokenType.Number lit) =
        .ok { st with current := m, tokens := st.tokens ++ [⟨.Number, sspan st.source st.start m, sspan st.source st.start m, st.line⟩] } := by
    intro m hm1 hm2
    rw [byteSlice_of_ascii st.source st.start m hA hm1 hm2]
    dsimp only
    exact add_token_literal_spec { st with current := m } .Number _
      (by simpa using hA) (by dsimp only; omega) (by simpa using hm2)
  obtain ⟨c1, hd, h1, h2, h3⟩ := digitsLoop_spec fuel st hA hcur hf
  unfold number
  rw [hd]
  dsimp only
  cases hg : st.source.get? c1 with
  | none =>
    have hcl : st.source.length ≤ c1 := List.get?_eq_none.mp hg
    rw [peek_ascii_end { st with current := c1 } (by simpa using hA)
      (by simpa using hcl)]
    dsimp only
    rw [if_neg (show ¬('\x00' = '.') by decide)]
    dsimp only
    refine ⟨c1, ?_, h1, h2, fun ch hch => rustIsDigit_ne_nl ch (h3 ch hch)⟩
    exact hfin c1 (by omega) h2
  | some p =>
    rw [peek_ascii_mid { st with current := c1 } p (by simpa using hA)
      (by simpa using hg)]
    dsimp only
    have hlt1 : c1 < st.source.length := (List.get?_eq_some.mp hg).1
    by_cases hdot : p = '.'
    · rw [if_pos hdot]
      cases hg2 : st.source.get? (c1 + 1) with
      | none =>
        have hcl2 : st.source.length ≤ c1 + 1 := List.get?_eq_none.mp hg2
        rw [peek_next_ascii_end { st with current := c1 } (by simpa using hA)
          (by simpa using hcl2)]
        dsimp only
        rw [if_neg (show ¬(rustIsDigit '\x00' = true) by decide)]
        dsimp only
        refine ⟨c1, ?_, h1, h2, fun ch hch => rustIsDigit_ne_nl ch (h3 ch hch)⟩
        exact hfin c1 (by omega) h2
      | some pn =>
        rw [peek_next_ascii_mid { st with current := c1 } pn (by simpa using hA)
          (by simpa using hg2)]
        dsimp only
        by_cases hdig : rustIsDigit pn = true
        · rw [if_pos hdig]
          rw [advance_ascii { st with current := c1 } p (by simpa using hg)]
          dsimp only
          obtain ⟨c2, hd2, h1', h2', h3'⟩ :=
            digitsLoop_spec fuel { st with current := c1 + 1 }
              (by simpa using hA) (by dsimp only; omega) (by dsimp only; omega)
          dsimp only at hd2 h1' h2' h3'
          rw [hd2]
          dsimp only
          refine ⟨c2, hfin c2 (by omega) h2', by omega, h2', ?_⟩
          have hsp1 : sspan st.source st.current c2 =
              sspan st.source st.current c1 ++ sspan st.source c1 c2 := by
            rw [sspan_append st.source st.current c1 c2 h1 (by omega)]
          have hsp2 : sspan st.source c1 c2 =
              [p] ++ sspan st.source (c1 + 1) c2 := by
            rw [← sspan_single st.source c1 p hg,
              sspan_append st.source c1 (c1 + 1) c2 (by omega) (by omega)]
          rw [hsp1, hsp2]
          intro ch hch
          rcases List.mem_append.mp hch with hch | hch
          · exact rustIsDigit_ne_nl ch (h3 ch hch)
          · rcases List.mem_append.mp hch with hch | hch
            · simp at hch
              subst hch
              rw [hdot]
              decide
            · exact rustIsDigit_ne_nl ch (h3' ch hch)
        · rw [if_neg hdig]
          dsimp only
          refine ⟨c1, ?_, h1, h2, fun ch hch => rustIsDigit_ne_nl ch (h3 ch hch)⟩
          exact hfin c1 (by omega) h2
    · rw [if_neg hdot]
      dsimp only
      refine ⟨c1, ?_, h1, h2, fun ch hch => rustIsDigit_ne_nl ch (h3 ch hch)⟩
      exact hfin c1 (by omega) h2

theorem keywordType_ne_eof (text : List Char) (tt : TokenType)
    (h : keywordType text = some tt) : tt ≠ .Eof := by
  unfold keywordType at h
  by_cases hk0 : text = ("and").toList
  · rw [if_pos hk0] at h
    cases h
    decide
  · rw [if_neg hk0] at h
    by_cases hk1 : text = ("class").toList
    · rw [if_pos hk1] at h
      cases h
      decide
    · rw [if_neg hk1] at h
      by_cases hk2 : text = ("else").toList
      · rw [if_pos hk2] at h
        cases h
        decide
      · rw [if_neg hk2] at h
        by_cases hk3 : text = ("false").toList
        · rw [if_pos hk3] at h
          cases h
          decide
        · rw [if_neg hk3] at h
          by_cases hk4 : text = ("for").toList
          · rw [if_pos hk4] at h
            cases h
            decide
          · rw [if_neg hk4] at h
            by_cases hk5 : text = ("fun").toList
            · rw [if_pos hk5] at h
              cases h
              decide
            · rw [if_neg hk5] at h
              by_cases hk6 : text = ("if").toList
              · rw [if_pos hk6] at h
                cases h
                decide
              · rw [if_neg hk6] at h
                by_cases hk7 : text = ("nil").toList
                · rw [if_pos hk7] at h
                  cases h
                  decide
                · rw [if_neg hk7] at h
                  by_cases hk8 : text = ("or").toList
                  · rw [if_pos hk8] at h
                    cases h
                    decide
                  · rw [if_neg hk8] at h
                    by_cases hk9 : text = ("print").toList
                    · rw [if_pos hk9] at h
                      cases h
                      decide
                    · rw [if_neg hk9] at h
                      by_cases hk10 : text = ("return").toList
                      · rw [if_pos hk10] at h
                        cases h
                        decide
                      · rw [if_neg hk10] at h
                        by_cases hk11 : text = ("super").toList
                        · rw [if_pos hk11] at h
                          cases h
                          decide
                        · rw [if_neg hk11] at h
                          by_cases hk12 : text = ("this").toList
                          · rw [if_pos hk12] at h
                            cases h
                            decide
                          · rw [if_neg hk12] at h
                            by_cases hk13 : text = ("true").toList
                            · rw [if_pos hk13] at h
                              cases h
                              decide
                            · rw [if_neg hk13] at h
                              by_cases hk14 : text = ("var").toList
                              · rw [if_pos hk14] at h
                                cases h
                                decide
                              · rw [if_neg hk14] at h
                                by_cases hk15 : text = ("while").toList
                                · rw [if_pos hk15] at h
                                  cases h
                                  decide
                                · rw [if_neg hk15] at h
                                  cases h

theorem identifier_spec (fuel : Nat) (st : Scanner) (hA : allASCII st.source = true)
    (hstart : st.start ≤ st.current) (hcur : st.current ≤ st.source.length)
    (hf : st.source.length - st.current < fuel) :
    ∃ m t, identifier fuel st = .ok { st with current := m, tokens := st.tokens ++ [t] } ∧
      st.current ≤ m ∧ m ≤ st.source.length ∧
      Token.lexeme t = sspan st.source st.start m ∧ Token.line t = st.line ∧
      Token.ttype t ≠ .Eof ∧
      ∀ ch ∈ sspan st.source st.current m, ch ≠ '\n' := by
  obtain ⟨c1, hrun, h1, h2, h3⟩ := identLoop_spec fuel st hA hcur hf
  unfold identifier
  rw [hrun]
  dsimp only
  rw [byteSlice_of_ascii st.source st.start c1 hA (by omega) h2]
  dsimp only
  cases hk : keywordType (sspan st.source st.start c1) with
  | some tt =>
    dsimp only
    refine ⟨c1, ⟨tt, sspan st.source st.start c1, [], st.line⟩, ?_, h1, h2, rfl, rfl,
      keywordType_ne_eof _ tt hk,
      fun ch hch => rustIsAlphanumeric_ne_nl ch (h3 ch hch)⟩
    unfold add_token
    exact add_token_literal_spec { st with current := c1 } tt []
      (by simpa using hA) (by dsimp only; omega) (by simpa using h2)
  | none =>
    dsimp only
    refine ⟨c1, ⟨.Identifier, sspan st.source st.start c1,
      sspan st.source st.start c1, st.line⟩, ?_, h1, h2, rfl, rfl, (fun hh => nomatch hh),
      fun ch hch => rustIsAlphanumeric_ne_nl ch (h3 ch hch)⟩
    exact add_token_literal_spec { st with current := c1 } .Identifier _
      (by simpa using hA) (by dsimp only; omega) (by simpa using h2)

theorem stringScan_spec (fuel : Nat) (st : Scanner) (hA : allASCII st.source = true)
    (hq0 : st.current = st.start + 1) (hcur : st.current ≤ st.source.length)
    (hf : st.source.length - st.current < fuel) :
    (∃ c1, stringScan fuel st = .error (.err .UnterminatedString) ∧
      st.current ≤ c1 ∧ c1 = st.source.length ∧
      ∀ ch ∈ sspan st.source st.current c1, ch ≠ '"') ∨
    (∃ c1 l1, stringScan fuel st = .ok { st with current := c1 + 1, line := l1, tokens := st.tokens ++ [⟨.String, sspan st.source st.start (c1 + 1), sspan st.source (st.start + 1) c1, l1⟩] } ∧
      l1 = st.line + countNL (sspan st.source st.current c1) ∧
      st.current ≤ c1 ∧ c1 < st.source.length ∧
      st.source.get? c1 = some '"' ∧
      ∀ ch ∈ sspan st.source st.current c1, ch ≠ '"') := by
  obtain ⟨c2, l2, hrun, h1, h2, hl2, h3, h4⟩ := stringLoop_spec fuel st hA hcur hf
  unfold stringScan
  rw [hrun]
  dsimp only
  rcases h4 with h4 | h4
  · -- end of input before a closing quote
    have hend : is_at_end { st with current := c2, line := l2 } = true := by
      unfold is_at_end
      simp only [decide_eq_true_eq]
      rw [byteLen_of_ascii _ (by simpa using hA)]
      omega
    rw [if_pos hend]
    exact Or.inl ⟨c2, rfl, h1, h4, h3⟩
  · -- closing quote found at index c2
    have hlt : c2 < st.source.length := (List.get?_eq_some.mp h4).1
    have hend : ¬ is_at_end { st with current := c2, line := l2 } = true := by
      unfold is_at_end
      simp only [decide_eq_true_eq]
      rw [byteLen_of_ascii _ (by simpa using hA)]
      omega
    rw [if_neg hend]
    rw [advance_ascii { st with current := c2, line := l2 } '"' (by simpa using h4)]
    dsimp only
    have hc2 : c2 + 1 - 1 = c2 := by omega
    rw [hc2]
    rw [byteSlice_of_ascii st.source (st.start + 1) c2 hA (by omega) (by omega)]
    dsimp only
    refine Or.inr ⟨c2, l2, ?_, hl2, h1, hlt, h4, h3⟩
    exact add_token_literal_spec { st with current := c2 + 1, line := l2 } .String _
      (by simpa using hA) (by dsimp only; omega) (by simpa using hlt)

theorem match_char_ascii (st : Scanner) (e : Char) (hA : allASCII st.source = true) :
    match_char st e =
      if st.source.get? st.current = some e then
        (true, { st with current := st.current + 1 })
      else (false, st) := by
  unfold match_char is_at_end
  by_cases hend : byteLen st.source ≤ st.current
  · rw [if_pos (by simpa using hend)]
    rw [byteLen_of_ascii _ hA] at hend
    rw [List.get?_eq_none.mpr hend]
    rw [if_neg (by simp)]
  · rw [if_neg (by simpa using hend)]

theorem ident_start_ne_nl (c : Char)
    (h : (('a' ≤ c && c ≤ 'z') || ('A' ≤ c && c ≤ 'Z') || c = '_') = true) :
    c ≠ '\n' := by
  intro hc
  subst hc
  exact absurd h (by decide)

/-- One successful `scan_token` call from a freshly-reset state either
fails with a lexical error or performs a `StepProps` step (ASCII source).
-/
theorem scan_token_spec (fuel : Nat) (st : Scanner) (hA : allASCII st.source = true)
    (hsc : st.start = st.current) (hlt : st.current < st.source.length)
    (hf : st.source.length - st.current ≤ fuel) :
    (∃ e, scan_token fuel st = .error (.err e)) ∨
    (∃ st', scan_token fuel st = .ok st' ∧ StepProps st st') := by
  obtain ⟨c, hg⟩ : ∃ c, st.source.get? st.current = some c := by
    cases hgg : st.source.get? st.current with
    | none =>
      rw [List.get?_eq_none] at hgg
      omega
    | some c => exact ⟨c, rfl⟩
  unfold scan_token
  rw [advance_ascii st c hg]
  dsimp only
  by_cases h1 : c = '('
  · rw [if_pos h1]
    obtain ⟨st2, hok, hsp⟩ := emit_span st (st.current + 1) .LeftParen [] hA hsc
      (by omega) (by omega)
      (by rw [sspan_single st.source st.current c hg, countNL_single,
        if_neg (show ¬(c = '\n') by rw [h1]; decide)])
      (fun hh => nomatch hh)
    exact Or.inr ⟨st2, hok, hsp⟩
  · rw [if_neg h1]
    by_cases h2 : c = ')'
    · rw [if_pos h2]
      obtain ⟨st2, hok, hsp⟩ := emit_span st (st.current + 1) .RightParen [] hA hsc
        (by omega) (by omega)
        (by rw [sspan_single st.source st.current c hg, countNL_single,
          if_neg (show ¬(c = '\n') by rw [h2]; decide)])
        (fun hh => nomatch hh)
      exact Or.inr ⟨st2, hok, hsp⟩
    · rw [if_neg h2]
      by_cases h3 : c = '{'
      · rw [if_pos h3]
        obtain ⟨st2, hok, hsp⟩ := emit_span st (st.current + 1) .LeftBrace [] hA hsc
          (by omega) (by omega)
          (by rw [sspan_single st.source st.current c hg, countNL_single,
            if_neg (show ¬(c = '\n') by rw [h3]; decide)])
          (fun hh => nomatch hh)
        exact Or.inr ⟨st2, hok, hsp⟩
      · rw [if_neg h3]
        by_cases h4 : c = '}'
        · rw [if_pos h4]
          obtain ⟨st2, hok, hsp⟩ := emit_span st (st.current + 1) .RightBrace [] hA hsc
            (by omega) (by omega)
            (by rw [sspan_single st.source st.current c hg, countNL_single,
              if_neg (show ¬(c = '\n') by rw [h4]; decide)])
            (fun hh => nomatch hh)
          exact Or.inr ⟨st2, hok, hsp⟩
        · rw [if_neg h4]
          by_cases h5 : c = ','
          · rw [if_pos h5]
            obtain ⟨st2, hok, hsp⟩ := emit_span st (st.current + 1) .Comma [] hA hsc
              (by omega) (by omega)
              (by rw [sspan_single st.source st.current c hg, countNL_single,
                if_neg (show ¬(c = '\n') by rw [h5]; decide)])
              (fun hh => nomatch hh)
            exact Or.inr ⟨st2, hok, hsp⟩
          · rw [if_neg h5]
            by_cases h6 : c = '.'
            · rw [if_pos h6]
              obtain ⟨st2, hok, hsp⟩ := emit_span st (st.current + 1) .Dot [] hA hsc
                (by omega) (by omega)
                (by rw [sspan_single st.source st.current c hg, countNL_single,
                  if_neg (show ¬(c = '\n') by rw [h6]; decide)])
                (fun hh => nomatch hh)
              exact Or.inr ⟨st2, hok, hsp⟩
            · rw [if_neg h6]
              by_cases h7 : c = '-'
              · rw [if_pos h7]
                obtain ⟨st2, hok, hsp⟩ := emit_span st (st.current + 1) .Minus [] hA hsc
                  (by omega) (by omega)
                  (by rw [sspan_single st.source st.current c hg, countNL_single,
                    if_neg (show ¬(c = '\n') by rw [h7]; decide)])
                  (fun hh => nomatch hh)
                exact Or.inr ⟨st2, hok, hsp⟩
              · rw [if_neg h7]
                by_cases h8 : c = '+'
                · rw [if_pos h8]
                  obtain ⟨st2, hok, hsp⟩ := emit_span st (st.current + 1) .Plus [] hA hsc
                    (by omega) (by omega)
                    (by rw [sspan_single st.source st.current c hg, countNL_single,
                      if_neg (show ¬(c = '\n') by rw [h8]; decide)])
                    (fun hh => nomatch hh)
                  exact Or.inr ⟨st2, hok, hsp⟩
                · rw [if_neg h8]
                  by_cases h9 : c = ';'
                  · rw [if_pos h9]
                    obtain ⟨st2, hok, hsp⟩ := emit_span st (st.current + 1) .Semicolon [] hA hsc
                      (by omega) (by omega)
                      (by rw [sspan_single st.source st.current c hg, countNL_single,
                        if_neg (show ¬(c = '\n') by rw [h9]; decide)])
                      (fun hh => nomatch hh)
                    exact Or.inr ⟨st2, hok, hsp⟩
                  · rw [if_neg h9]
                    by_cases h10 : c = '*'
                    · rw [if_pos h10]
                      obtain ⟨st2, hok, hsp⟩ := emit_span st (st.current + 1) .Star [] hA hsc
                        (by omega) (by omega)
                        (by rw [sspan_single st.source st.current c hg, countNL_single,
                          if_neg (show ¬(c = '\n') by rw [h10]; decide)])
                        (fun hh => nomatch hh)
                      exact Or.inr ⟨st2, hok, hsp⟩
                    · rw [if_neg h10]
                      by_cases h11 : c = '!'
                      · rw [if_pos h11]
                        rw [match_char_ascii { st with current := st.current + 1 } '=' (by simpa using hA)]
                        dsimp only
                        by_cases hm : st.source.get? (st.current + 1) = some '='
                        · rw [if_pos hm]
                          dsimp only
                          obtain ⟨st2, hok, hsp⟩ := emit_span st (st.current + 1 + 1) .BangEqual [] hA hsc
                            (by omega) (by have := (List.get?_eq_some.mp hm).1; omega)
                            (by rw [← sspan_append st.source st.current (st.current + 1) (st.current + 1 + 1) (by omega) (by omega),
                              sspan_single st.source st.current c hg,
                              sspan_single st.source (st.current + 1) '=' hm,
                              countNL_append, countNL_single, countNL_single,
                              if_neg (show ¬(c = '\n') by rw [h11]; decide),
                              if_neg (show ¬('=' = '\n') by decide)])
                            (fun hh => nomatch hh)
                          exact Or.inr ⟨st2, hok, hsp⟩
                        · rw [if_neg hm]
                          dsimp only
                          obtain ⟨st2, hok, hsp⟩ := emit_span st (st.current + 1) .Bang [] hA hsc
                            (by omega) (by omega)
                            (by rw [sspan_single st.source st.current c hg, countNL_single,
                              if_neg (show ¬(c = '\n') by rw [h11]; decide)])
                            (fun hh => nomatch hh)
                          exact Or.inr ⟨st2, hok, hsp⟩
                      · rw [if_neg h11]
                        by_cases h12 : c = '='
                        · rw [if_pos h12]
                          rw [match_char_ascii { st with current := st.current + 1 } '=' (by simpa using hA)]
                          dsimp only
                          by_cases hm : st.source.get? (st.current + 1) = some '='
                          · rw [if_pos hm]
                            dsimp only
                            obtain ⟨st2, hok, hsp⟩ := emit_span st (st.current + 1 + 1) .EqualEqual [] hA hsc
                              (by omega) (by have := (List.get?_eq_some.mp hm).1; omega)
                              (by rw [← sspan_append st.source st.current (st.current + 1) (st.current + 1 + 1) (by omega) (by omega),
                                sspan_single st.source st.current c hg,
                                sspan_single st.source (st.current + 1) '=' hm,
                                countNL_append, countNL_single, countNL_single,
                                if_neg (show ¬(c = '\n') by rw [h12]; decide),
                                if_neg (show ¬('=' = '\n') by decide)])
                              (fun hh => nomatch hh)
                            exact Or.inr ⟨st2, hok, hsp⟩
                          · rw [if_neg hm]
                            dsimp only
                            obtain ⟨st2, hok, hsp⟩ := emit_span st (st.current + 1) .Equal [] hA hsc
                              (by omega) (by omega)
                              (by rw [sspan_single st.source st.current c hg, countNL_single,
                                if_neg (show ¬(c = '\n') by rw [h12]; decide)])
                              (fun hh => nomatch hh)
                            exact Or.inr ⟨st2, hok, hsp⟩
                        · rw [if_neg h12]
                          by_cases h13 : c = '<'
                          · rw [if_pos h13]
                            rw [match_char_ascii { st with current := st.current + 1 } '=' (by simpa using hA)]
                            dsimp only
                            by_cases hm : st.source.get? (st.current + 1) = some '='
                            · rw [if_pos hm]
                              dsimp only
                              obtain ⟨st2, hok, hsp⟩ := emit_span st (st.current + 1 + 1) .LessEqual [] hA hsc
                                (by omega) (by have := (List.get?_eq_some.mp hm).1; omega)
                                (by rw [← sspan_append st.source st.current (st.current + 1) (st.current + 1 + 1) (by omega) (by omega),
                                  sspan_single st.source st.current c hg,
                                  sspan_single st.source (st.current + 1) '=' hm,
                                  countNL_append, countNL_single, countNL_single,
                                  if_neg (show ¬(c = '\n') by rw [h13]; decide),
                                  if_neg (show ¬('=' = '\n') by decide)])
                                (fun hh => nomatch hh)
                              exact Or.inr ⟨st2, hok, hsp⟩
                            · rw [if_neg hm]
                              dsimp only
                              obtain ⟨st2, hok, hsp⟩ := emit_span st (st.current + 1) .Less [] hA hsc
                                (by omega) (by omega)
                                (by rw [sspan_single st.source st.current c hg, countNL_single,
                                  if_neg (show ¬(c = '\n') by rw [h13]; decide)])
                                (fun hh => nomatch hh)
                              exact Or.inr ⟨st2, hok, hsp⟩
                          · rw [if_neg h13]
                            by_cases h14 : c = '>'
                            · rw [if_pos h14]
                              rw [match_char_ascii { st with current := st.current + 1 } '=' (by simpa using hA)]
                              dsimp only
                              by_cases hm : st.source.get? (st.current + 1) = some '='
                              · rw [if_pos hm]
                                dsimp only
                                obtain ⟨st2, hok, hsp⟩ := emit_span st (st.current + 1 + 1) .GreaterEqual [] hA hsc
                                  (by omega) (by have := (List.get?_eq_some.mp hm).1; omega)
                                  (by rw [← sspan_append st.source st.current (st.current + 1) (st.current + 1 + 1) (by omega) (by omega),
                                    sspan_single st.source st.current c hg,
                                    sspan_single st.source (st.current + 1) '=' hm,
                                    countNL_append, countNL_single, countNL_single,
                                    if_neg (show ¬(c = '\n') by rw [h14]; decide),
                                    if_neg (show ¬('=' = '\n') by decide)])
                                  (fun hh => nomatch hh)
                                exact Or.inr ⟨st2, hok, hsp⟩
                              · rw [if_neg hm]
                                dsimp only
                                obtain ⟨st2, hok, hsp⟩ := emit_span st (st.current + 1) .Greater [] hA hsc
                                  (by omega) (by omega)
                                  (by rw [sspan_single st.source st.current c hg, countNL_single,
                                    if_neg (show ¬(c = '\n') by rw [h14]; decide)])
                                  (fun hh => nomatch hh)
                                exact Or.inr ⟨st2, hok, hsp⟩
                            · rw [if_neg h14]
                              by_cases h15 : c = '/'
                              · rw [if_pos h15]
                                rw [match_char_ascii { st with current := st.current + 1 } '/' (by simpa using hA)]
                                dsimp only
                                by_cases hm : st.source.get? (st.current + 1) = some '/'
                                · rw [if_pos hm]
                                  dsimp only
                                  have hlt2 : st.current + 1 < st.source.length := (List.get?_eq_some.mp hm).1
                                  obtain ⟨c3, hok, hb1, hb2, hb3⟩ :=
                                    commentLoop_spec fuel { st with current := st.current + 1 + 1 }
                                      (by simpa using hA) (by dsimp only; omega) (by dsimp only; omega)
                                  dsimp only at hok hb1 hb2 hb3
                                  refine Or.inr ⟨_, hok, skip_span st c3 (by omega) hb2 ?_⟩
                                  rw [← sspan_append st.source st.current (st.current + 1) c3 (by omega) (by omega),
                                    ← sspan_append st.source (st.current + 1) (st.current + 1 + 1) c3 (by omega) (by omega),
                                    sspan_single st.source st.current c hg,
                                    sspan_single st.source (st.current + 1) '/' hm,
                                    countNL_append, countNL_append, countNL_single, countNL_single,
                                    if_neg (show ¬(c = '\n') by rw [h15]; decide),
                                    if_neg (show ¬('/' = '\n') by decide),
                                    countNL_eq_zero _ hb3]
                                · rw [if_neg hm]
                                  dsimp only
                                  obtain ⟨st2, hok, hsp⟩ := emit_span st (st.current + 1) .Slash [] hA hsc
                                    (by omega) (by omega)
                                    (by rw [sspan_single st.source st.current c hg, countNL_single,
                                      if_neg (show ¬(c = '\n') by rw [h15]; decide)])
                                    (fun hh => nomatch hh)
                                  exact Or.inr ⟨st2, hok, hsp⟩
                              · rw [if_neg h15]
                                by_cases h16 : (c = ' ' || c = '\r' || c = '\t') = true
                                · rw [if_pos h16]
                                  have hcnl : ¬(c = '\n') := by
                                    simp only [Bool.or_eq_true, decide_eq_true_eq] at h16
                                    rcases h16 with (h | h) | h <;> (rw [h]; decide)
                                  exact Or.inr ⟨_, rfl, skip_span st (st.current + 1) (by omega) (by omega)
                                    (by rw [sspan_single st.source st.current c hg, countNL_single, if_neg hcnl])⟩
                                · rw [if_neg h16]
                                  by_cases h17 : c = '\n'
                                  · rw [if_pos h17]
                                    refine Or.inr ⟨_, rfl, rfl, rfl, (by show st.current < st.current + 1; omega), (by show st.current + 1 ≤ st.source.length; omega), ?_, Or.inl rfl⟩
                                    show st.line + 1 = st.line + countNL (sspan st.source st.current (st.current + 1))
                                    rw [sspan_single st.source st.current c hg, countNL_single, if_pos h17]
                                  · rw [if_neg h17]
                                    by_cases h18 : c = '"'
                                    · rw [if_pos h18]
                                      rcases stringScan_spec fuel { st with current := st.current + 1 }
                                          (by simpa using hA) (by dsimp only; omega) (by dsimp only; omega)
                                          (by dsimp only; omega) with
                                        ⟨c1, herr, hx1, hx2, hx3⟩ | ⟨c1, l1, hok, hl1, hc1a, hc1b, hq, hnq⟩
                                      · exact Or.inl ⟨.UnterminatedString, herr⟩
                                      · dsimp only at hok hl1 hc1a hc1b hq hnq
                                        have hsp : sspan st.source st.current (c1 + 1) =
                                            [c] ++ (sspan st.source (st.current + 1) c1 ++ ['"']) := by
                                          rw [← sspan_append st.source st.current (st.current + 1) (c1 + 1) (by omega) (by omega),
                                            sspan_single st.source st.current c hg,
                                            ← sspan_append st.source (st.current + 1) c1 (c1 + 1) (by omega) (by omega),
                                            sspan_single st.source c1 '"' hq]
                                        have hnl : countNL (sspan st.source st.current (c1 + 1)) =
                                            countNL (sspan st.source (st.current + 1) c1) := by
                                          rw [hsp, countNL_append, countNL_append, countNL_single, countNL_single,
                                            if_neg (show ¬(c = '\n') by rw [h18]; decide),
                                            if_neg (show ¬('"' = '\n') by decide)]
                                          omega
                                        refine Or.inr ⟨_, hok, rfl, rfl, (by show st.current < c1 + 1; omega), (by show c1 + 1 ≤ st.source.length; omega), ?_, Or.inr ⟨_, rfl, rfl, rfl, (fun hh => nomatch hh)⟩⟩
                                        show l1 = st.line + countNL (sspan st.source st.current (c1 + 1))
                                        rw [hnl]
                                        exact hl1
                                    · rw [if_neg h18]
                                      by_cases h19 : ('0' ≤ c && c ≤ '9') = true
                                      · rw [if_pos h19]
                                        obtain ⟨m, hok, hm1, hm2, hm3⟩ :=
                                          number_spec fuel { st with current := st.current + 1 }
                                            (by simpa using hA) (by dsimp only; rw [hsc]; omega) (by dsimp only; omega)
                                            (by dsimp only; omega)
                                        dsimp only at hok hm1 hm2 hm3
                                        have hnl : countNL (sspan st.source st.current m) = 0 := by
                                          rw [← sspan_append st.source st.current (st.current + 1) m (by omega) (by omega),
                                            sspan_single st.source st.current c hg,
                                            countNL_append, countNL_single,
                                            if_neg (rustIsDigit_ne_nl c h19),
                                            countNL_eq_zero _ hm3]
                                        refine Or.inr ⟨_, hok, rfl, rfl, (by show st.current < m; omega), hm2, ?_, Or.inr ⟨_, rfl, rfl, rfl, (fun hh => nomatch hh)⟩⟩
                                        show st.line = st.line + countNL (sspan st.source st.current m)
                                        omega
                                      · rw [if_neg h19]
                                        by_cases h20 : (('a' ≤ c && c ≤ 'z') || ('A' ≤ c && c ≤ 'Z') || c = '_') = true
                                        · rw [if_pos h20]
                                          obtain ⟨m, t, hok, hm1, hm2, hlex, hline, htt, hm3⟩ :=
                                            identifier_spec fuel { st with current := st.current + 1 }
                                              (by simpa using hA) (by dsimp only; rw [hsc]; omega) (by dsimp only; omega)
                                              (by dsimp only; omega)
                                          dsimp only at hok hm1 hm2 hlex hline htt hm3
                                          have hnl : countNL (sspan st.source st.current m) = 0 := by
                                            rw [← sspan_append st.source st.current (st.current + 1) m (by omega) (by omega),
                                              sspan_single st.source st.current c hg,
                                              countNL_append, countNL_single,
                                              if_neg (ident_start_ne_nl c h20),
                                              countNL_eq_zero _ hm3]
                                          refine Or.inr ⟨_, hok, rfl, rfl, (by show st.current < m; omega), hm2, ?_, Or.inr ⟨t, rfl, ?_, ?_, htt⟩⟩
                                          · show st.line = st.line + countNL (sspan st.source st.current m)
                                            omega
                                          · show Token.lexeme t = sspan st.source st.start m
                                            exact hlex
                                          · show Token.line t = st.line
                                            exact hline
                                        · rw [if_neg h20]
                                          exact Or.inl ⟨.UnexpectedCharacter c, rfl⟩

/-- The scan loop on an ASCII source: with enough fuel it either stops at
the first lexical error or consumes the whole source, appending exactly the
tokens described by a `Trace` of the remaining text. -/
theorem scanLoop_spec (fuel : Nat) (st : Scanner) (hA : allASCII st.source = true)
    (hcur : st.current ≤ st.source.length)
    (hf : st.source.length - st.current < fuel) :
    (∃ e, scanLoop fuel st = .error (.err e)) ∨
    (∃ st' toks, scanLoop fuel st = .ok st' ∧ st'.source = st.source ∧
      st'.current = st.source.length ∧ st'.tokens = st.tokens ++ toks ∧
      Trace st.line (st.source.drop st.current) toks st'.line) := by
  induction fuel generalizing st with
  | zero => omega
  | succ n ih =>
    unfold scanLoop
    by_cases hend : is_at_end st
    · rw [if_pos hend]
      unfold is_at_end at hend
      simp only [decide_eq_true_eq] at hend
      rw [byteLen_of_ascii _ hA] at hend
      have hce : st.current = st.source.length := by omega
      refine Or.inr ⟨st, [], rfl, rfl, hce, (List.append_nil st.tokens).symm, ?_⟩
      rw [hce, List.drop_length]
      exact Trace.done st.line
    · rw [if_neg hend]
      unfold is_at_end at hend
      simp only [decide_eq_true_eq] at hend
      rw [byteLen_of_ascii _ hA] at hend
      have hlt : st.current < st.source.length := by omega
      rcases scan_token_spec n { st with start := st.current } (by simpa using hA)
          rfl (by simpa using hlt) (by dsimp only; omega) with
        ⟨e, herr⟩ | ⟨st1, hok, hsp⟩
      · rw [herr]
        exact Or.inl ⟨e, rfl⟩
      · rw [hok]
        dsimp only
        obtain ⟨hsrc1, hstart1, hcur1, hb1, hline1, htoks1⟩ := hsp
        dsimp only at hsrc1 hstart1 hcur1 hb1 hline1 htoks1
        rcases ih st1 (by rw [hsrc1]; exact hA) (by rw [hsrc1]; exact hb1)
            (by rw [hsrc1]; omega) with
          ⟨e, herr⟩ | ⟨st2, toks2, hok2, hsrc2, hcur2, htoks2, htr2⟩
        · rw [herr]
          exact Or.inl ⟨e, rfl⟩
        · have hdrop : st.source.drop st.current =
              sspan st.source st.current st1.current ++ st.source.drop st1.current :=
            drop_eq_sspan_append st.source st.current st1.current (by omega)
        -- combine the step with the tail of the loop
          rcases htoks1 with htoks1 | ⟨t, ht1, hlex, htl, htt⟩
          · refine Or.inr ⟨st2, toks2, hok2, by rw [hsrc2, hsrc1],
              by rw [hcur2, hsrc1], by rw [htoks2, htoks1], ?_⟩
            rw [hdrop]
            refine Trace.skip st.line _ _ toks2 st2.line ?_
            rw [← hline1]
            rw [hsrc1] at htr2
            exact htr2
          · refine Or.inr ⟨st2, t :: toks2, hok2, by rw [hsrc2, hsrc1],
              by rw [hcur2, hsrc1], ?_, ?_⟩
            · rw [htoks2, ht1]
              simp
            · rw [hdrop]
              refine Trace.tok st.line _ _ t toks2 st2.line hlex (by rw [htl, hline1])
                htt ?_
              rw [← hline1]
              rw [hsrc1] at htr2
              exact htr2

/-- `scan_tokens` on an ASCII source: either exactly one lexical error, or
the trace tokens followed by a single Eof token with empty lexeme. -/
theorem scan_tokens_spec (src : List Char) (hA : allASCII src = true) :
    (∃ e, scan_tokens src = .error (.err e)) ∨
    (∃ toks l, scan_tokens src = .ok (toks ++ [⟨.Eof, [], [], l⟩]) ∧
      Trace 1 src toks l) := by
  unfold scan_tokens
  rcases scanLoop_spec (byteLen src + 1) ⟨src, [], 0, 0, 1⟩ (by simpa using hA)
      (by simp) (by dsimp only; rw [byteLen_of_ascii _ hA]; omega) with
    ⟨e, herr⟩ | ⟨st', toks, hok, hsrc, hcur, htoks, htr⟩
  · rw [herr]
    exact Or.inl ⟨e, rfl⟩
  · rw [hok]
    dsimp only
    dsimp only at htoks
    refine Or.inr ⟨toks, st'.line, ?_, by simpa using htr⟩
    rw [htoks]
    simp

/-! ### Consequences of a trace -/

theorem Trace.line_le (l : Nat) (text : List Char) (toks : List Token)
    (l' : Nat) (h : Trace l text toks l') : l ≤ l' := by
  induction h with
  | done => exact le_refl _
  | skip l s text toks l' sub ih => omega
  | tok l s text t toks l' hlex hline htt sub ih => omega

theorem Trace.mem_line (l : Nat) (text : List Char) (toks : List Token)
    (l' : Nat) (h : Trace l text toks l') :
    ∀ t ∈ toks, l ≤ t.line ∧ t.line ≤ l' := by
  induction h with
  | done =>
    intro t ht
    simp at ht
  | skip l s text toks l' sub ih =>
    intro t ht
    have := ih t ht
    omega
  | tok l s text t0 toks l' hlex hline htt sub ih =>
    intro t ht
    rcases List.mem_cons.mp ht with ht | ht
    · subst ht
      have := Trace.line_le _ _ _ _ sub
      omega
    · have := ih t ht
      omega

theorem Trace.lines_pairwise (l : Nat) (text : List Char) (toks : List Token)
    (l' : Nat) (h : Trace l text toks l') :
    List.Pairwise (fun a b => Token.line a ≤ Token.line b) toks := by
  induction h with
  | done => exact List.Pairwise.nil
  | skip l s text toks l' sub ih => exact ih
  | tok l s text t0 toks l' hlex hline htt sub ih =>
    refine List.Pairwise.cons ?_ ih
    intro b hb
    have := Trace.mem_line _ _ _ _ sub b hb
    omega

theorem Trace.no_eof (l : Nat) (text : List Char) (toks : List Token)
    (l' : Nat) (h : Trace l text toks l') :
    ∀ t ∈ toks, Token.ttype t ≠ .Eof := by
  induction h with
  | done =>
    intro t ht
    simp at ht
  | skip l s text toks l' sub ih => exact ih
  | tok l s text t0 toks l' hlex hline htt sub ih =>
    intro t ht
    rcases List.mem_cons.mp ht with ht | ht
    · subst ht
      exact htt
    · exact ih t ht

theorem weave_cons_append (s s0 : List Char) (rest : List (List Char))
    (toks : List Token) :
    weave ((s ++ s0) :: rest) toks = s ++ weave (s0 :: rest) toks := by
  cases toks with
  | nil => simp [weave]
  | cons t ts => simp [weave]

theorem Trace.weave_decomp (l : Nat) (text : List Char) (toks : List Token)
    (l' : Nat) (h : Trace l text toks l') :
    ∃ skips, List.length skips = toks.length + 1 ∧ weave skips toks = text := by
  induction h with
  | done => exact ⟨[[]], rfl, rfl⟩
  | skip l s text toks l' sub ih =>
    obtain ⟨skips, hlen, hw⟩ := ih
    cases skips with
    | nil => simp at hlen
    | cons s0 rest =>
      refine ⟨(s ++ s0) :: rest, by simpa using hlen, ?_⟩
      rw [weave_cons_append, hw]
  | tok l s text t0 toks l' hlex hline htt sub ih =>
    obtain ⟨skips, hlen, hw⟩ := ih
    refine ⟨[] :: skips, by simpa using hlen, ?_⟩
    show [] ++ t0.lexeme ++ weave skips toks = s ++ text
    rw [hlex, hw]
    simp

theorem Trace.token_pos (l : Nat) (text : List Char) (toks : List Token)
    (l' : Nat) (h : Trace l text toks l') :
    ∀ t ∈ toks, ∃ pre post, text = pre ++ Token.lexeme t ++ post ∧
      Token.line t = l + countNL pre + countNL (Token.lexeme t) := by
  induction h with
  | done =>
    intro t ht
    simp at ht
  | skip l s text toks l' sub ih =>
    intro t ht
    obtain ⟨pre, post, hsplit, hline2⟩ := ih t ht
    refine ⟨s ++ pre, post, by rw [hsplit]; simp, ?_⟩
    rw [countNL_append]
    omega
  | tok l s text t0 toks l' hlex hline htt sub ih =>
    intro t ht
    rcases List.mem_cons.mp ht with ht | ht
    · subst ht
      refine ⟨[], text, by rw [hlex]; simp, ?_⟩
      rw [hlex, hline]
      simp [countNL]
    · obtain ⟨pre, post, hsplit, hline2⟩ := ih t ht
      refine ⟨s ++ pre, post, by rw [hsplit]; simp, ?_⟩
      rw [countNL_append]
      omega

theorem weave_snoc (toks : List Token) (skips : List (List Char))
    (hlen : List.length skips = toks.length + 1) (t : Token)
    (ht : Token.lexeme t = []) :
    weave (skips ++ [[]]) (toks ++ [t]) = weave skips toks := by
  induction toks generalizing skips with
  | nil =>
    cases skips with
    | nil => simp at hlen
    | cons s0 rest =>
      cases rest with
      | nil =>
        show s0 ++ t.lexeme ++ weave [[]] [] = s0
        rw [ht]
        show s0 ++ [] ++ [] = s0
        simp
      | cons s1 rest2 => simp at hlen
  | cons t0 ts ih =>
    cases skips with
    | nil => simp at hlen
    | cons s0 rest =>
      show s0 ++ t0.lexeme ++ weave (rest ++ [[]]) (ts ++ [t]) =
        s0 ++ t0.lexeme ++ weave rest ts
      rw [ih rest (by simpa using hlen) ]

/-! ### Claims -/

/-- C3 (code_bug): the spec demands that scanning never crashes on any
input, including multi-byte characters; but on the source `"é"` (a string
literal holding one two-byte character) the scanner panics: the literal
slice `source[start+1..current-1]` uses the character counter `current` as
a byte offset, which here falls in the middle of the two-byte `é`, so the
Rust slicing panics.  The embedded scanner returns `Fail.panic`, which is
neither a token stream nor one of the two lexical errors. -/
theorem c3_panic_on_multibyte :
    scan_tokens (("\"é\"").toList) = .error .panic := by
  rfl

/-- C5 (counterexample): the claim says each lexical error value carries
the source line of the error.  But `ScannerError` has no line field:
`"@"` (error on line 1) and `"\n@"` (error on line 2) produce *equal*
error values, so no function of the error value can report 1 for the first
and 2 for the second. -/
theorem c5_counterexample :
    scan_tokens (("@").toList) = .error (.err (.UnexpectedCharacter '@')) ∧
    scan_tokens (("\n@").toList) = .error (.err (.UnexpectedCharacter '@')) ∧
    ¬ ∃ f : ScannerError → Nat,
      f (.UnexpectedCharacter '@') = 1 ∧ f (.UnexpectedCharacter '@') = 2 := by
  refine ⟨rfl, rfl, ?_⟩
  rintro ⟨f, h1, h2⟩
  rw [h1] at h2
  cases h2

/-- C5 (amended): `UnexpectedCharacter` carries exactly the offending
character and `UnterminatedString` carries nothing; neither carries the
source line, so errors raised on different lines are indistinguishable
(shown for both error kinds on lines 1 and 2). -/
theorem c5_error_payloads :
    scan_tokens (("@").toList) = .error (.err (.UnexpectedCharacter '@')) ∧
    scan_tokens (("\n@").toList) = .error (.err (.UnexpectedCharacter '@')) ∧
    scan_tokens (("\"abc").toList) = .error (.err .UnterminatedString) ∧
    scan_tokens (("\n\"abc").toList) = .error (.err .UnterminatedString) := by
  exact ⟨rfl, rfl, rfl, rfl⟩

/-- C6 (confirmed): two-character operators are scanned by maximal munch
with one character of lookahead: `"!="` gives one BangEqual token, `"!"`
one Bang token, `"< = "` gives Less then Equal (not LessEqual), and the
same holds for `==`, `<=` and `>=`. -/
theorem c6_maximal_munch :
    scan_tokens (("!=").toList) =
      .ok [⟨.BangEqual, ("!=").toList, [], 1⟩, ⟨.Eof, [], [], 1⟩] ∧
    scan_tokens (("!").toList) =
      .ok [⟨.Bang, ("!").toList, [], 1⟩, ⟨.Eof, [], [], 1⟩] ∧
    scan_tokens (("< = ").toList) =
      .ok [⟨.Less, ("<").toList, [], 1⟩, ⟨.Equal, ("=").toList, [], 1⟩, ⟨.Eof, [], [], 1⟩] ∧
    scan_tokens (("==").toList) =
      .ok [⟨.EqualEqual, ("==").toList, [], 1⟩, ⟨.Eof, [], [], 1⟩] ∧
    scan_tokens (("<=").toList) =
      .ok [⟨.LessEqual, ("<=").toList, [], 1⟩, ⟨.Eof, [], [], 1⟩] ∧
    scan_tokens ((">=").toList) =
      .ok [⟨.GreaterEqual, (">=").toList, [], 1⟩, ⟨.Eof, [], [], 1⟩] := by
  exact ⟨rfl, rfl, rfl, rfl, rfl, rfl⟩

/-- C7 (confirmed): the number sub-scan takes a maximal digit run, consumes
a `'.'` only when immediately followed by a digit and never a trailing
`'.'`: `"123.456"` gives one Number token with literal `123.456`; `"123."`
gives Number `123` then a Dot token; `".5"` gives Dot then Number `5`. -/
theorem c7_number_boundaries :
    scan_tokens (("123.456").toList) =
      .ok [⟨.Number, ("123.456").toList, ("123.456").toList, 1⟩, ⟨.Eof, [], [], 1⟩] ∧
    scan_tokens (("123.").toList) =
      .ok [⟨.Number, ("123").toList, ("123").toList, 1⟩, ⟨.Dot, (".").toList, [], 1⟩, ⟨.Eof, [], [], 1⟩] ∧
    scan_tokens ((".5").toList) =
      .ok [⟨.Dot, (".").toList, [], 1⟩, ⟨.Number, ("5").toList, ("5").toList, 1⟩, ⟨.Eof, [], [], 1⟩] := by
  exact ⟨rfl, rfl, rfl⟩

/-- C8 (confirmed): keyword recognition is an exact, case-sensitive match
against precisely the sixteen reserved words: `keywordType` is defined
(`isSome`) exactly on the sixteen-word table, maps each reserved word to
its keyword kind (keyword tokens are emitted through `add_token`, so they
carry no literal payload), and a word with a keyword as proper prefix such
as `"printer"` scans as an Identifier whose literal is the text itself. -/
theorem c8_keywords_exact :
    (∀ text : List Char, (keywordType text).isSome = true ↔ text ∈ kwList) ∧
    keywordType (("and").toList) = some .And ∧
    keywordType (("class").toList) = some .Class ∧
    keywordType (("else").toList) = some .Else ∧
    keywordType (("false").toList) = some .False ∧
    keywordType (("for").toList) = some .For ∧
    keywordType (("fun").toList) = some .Fun ∧
    keywordType (("if").toList) = some .If ∧
    keywordType (("nil").toList) = some .Nil ∧
    keywordType (("or").toList) = some .Or ∧
    keywordType (("print").toList) = some .Print ∧
    keywordType (("return").toList) = some .Return ∧
    keywordType (("super").toList) = some .Super ∧
    keywordType (("this").toList) = some .This ∧
    keywordType (("true").toList) = some .True ∧
    keywordType (("var").toList) = some .Var ∧
    keywordType (("while").toList) = some .While ∧
    scan_tokens (("print printer").toList) =
      .ok [⟨.Print, ("print").toList, [], 1⟩, ⟨.Identifier, ("printer").toList, ("printer").toList, 1⟩, ⟨.Eof, [], [], 1⟩] := by
  refine ⟨?_, rfl, rfl, rfl, rfl, rfl, rfl, rfl, rfl, rfl, rfl, rfl, rfl, rfl, rfl, rfl, rfl, rfl⟩
  intro text
  constructor
  · intro h
    unfold keywordType at h
    by_cases hk0 : text = ("and").toList
    · rw [hk0]
      simp [kwList]
    · rw [if_neg hk0] at h
      by_cases hk1 : text = ("class").toList
      · rw [hk1]
        simp [kwList]
      · rw [if_neg hk1] at h
        by_cases hk2 : text = ("else").toList
        · rw [hk2]
          simp [kwList]
        · rw [if_neg hk2] at h
          by_cases hk3 : text = ("false").toList
          · rw [hk3]
            simp [kwList]
          · rw [if_neg hk3] at h
            by_cases hk4 : text = ("for").toList
            · rw [hk4]
              simp [kwList]
            · rw [if_neg hk4] at h
              by_cases hk5 : text = ("fun").toList
              · rw [hk5]
                simp [kwList]
              · rw [if_neg hk5] at h
                by_cases hk6 : text = ("if").toList
                · rw [hk6]
                  simp [kwList]
                · rw [if_neg hk6] at h
                  by_cases hk7 : text = ("nil").toList
                  · rw [hk7]
                    simp [kwList]
                  · rw [if_neg hk7] at h
                    by_cases hk8 : text = ("or").toList
                    · rw [hk8]
                      simp [kwList]
                    · rw [if_neg hk8] at h
                      by_cases hk9 : text = ("print").toList
                      · rw [hk9]
                        simp [kwList]
                      · rw [if_neg hk9] at h
                        by_cases hk10 : text = ("return").toList
                        · rw [hk10]
                          simp [kwList]
                        · rw [if_neg hk10] at h
                          by_cases hk11 : text = ("super").toList
                          · rw [hk11]
                            simp [kwList]
                          · rw [if_neg hk11] at h
                            by_cases hk12 : text = ("this").toList
                            · rw [hk12]
                              simp [kwList]
                            · rw [if_neg hk12] at h
                              by_cases hk13 : text = ("true").toList
                              · rw [hk13]
                                simp [kwList]
                              · rw [if_neg hk13] at h
                                by_cases hk14 : text = ("var").toList
                                · rw [hk14]
                                  simp [kwList]
                                · rw [if_neg hk14] at h
                                  by_cases hk15 : text = ("while").toList
                                  · rw [hk15]
                                    simp [kwList]
                                  · rw [if_neg hk15] at h
                                    simp at h
  · intro h
    simp only [kwList, List.mem_cons, List.not_mem_nil, or_false] at h
    rcases h with h|h|h|h|h|h|h|h|h|h|h|h|h|h|h|h
    all_goals (subst h; decide)

set_option maxRecDepth 100000 in
set_option maxHeartbeats 4000000 in
/-- C10 (confirmed): underscore is accepted as the first character of an
identifier (the dispatch range includes `'_'`) but never as a continuation
character, because the continuation test `is_alphanumeric` rejects `'_'`:
for every pair of ASCII letters `x`, `y` the input `x_y` scans as two
Identifier tokens `[x]` and `['_', y]` (checked exhaustively over all
52 × 52 letter pairs), e.g. `"a_b"` gives identifiers `a` and `_b`; and
`"_b"` alone scans as the single identifier `_b`. -/
theorem c10_underscore_not_continuation :
    rustIsAlphanumeric '_' = false ∧
    scan_tokens (("a_b").toList) =
      .ok [⟨.Identifier, ("a").toList, ("a").toList, 1⟩, ⟨.Identifier, ("_b").toList, ("_b").toList, 1⟩, ⟨.Eof, [], [], 1⟩] ∧
    scan_tokens (("_b").toList) =
      .ok [⟨.Identifier, ("_b").toList, ("_b").toList, 1⟩, ⟨.Eof, [], [], 1⟩] ∧
    (asciiLetters.all (fun x => asciiLetters.all (fun y =>
      scan_tokens [x, '_', y] =
        .ok [⟨.Identifier, [x], [x], 1⟩, ⟨.Identifier, ['_', y], ['_', y], 1⟩, ⟨.Eof, [], [], 1⟩]))) = true := by
  refine ⟨rfl, rfl, rfl, ?_⟩
  decide

theorem Trace.line_total (l : Nat) (text : List Char) (toks : List Token)
    (l' : Nat) (h : Trace l text toks l') : l' = l + countNL text := by
  induction h with
  | done => simp [countNL]
  | skip l s text toks l' sub ih =>
    rw [countNL_append]
    omega
  | tok l s text t0 toks l' hlex hline htt sub ih =>
    rw [countNL_append]
    omega

/-- C1 (counterexample): the claim promises that every finite input either
scans to an Eof-terminated token stream or produces exactly one lexical
error.  On the input `//é` the scanner instead panics: the comment loop's
`peek` calls `chars().nth(current)` with the character index already
exhausted while the byte-based `is_at_end` still answers false, and the
`unwrap` of `None` aborts the program.  Neither disjunct of the claim
holds there. -/
theorem c1_counterexample :
    ¬ ((∃ ts t, scan_tokens (("//é").toList) = .ok (ts ++ [t]) ∧
          Token.ttype t = .Eof ∧ Token.lexeme t = [] ∧
          ∀ u ∈ ts, Token.ttype u ≠ .Eof) ∨
        (∃ e, scan_tokens (("//é").toList) = .error (.err e))) := by
  have h : scan_tokens (("//é").toList) = .error .panic := by rfl
  rintro (⟨ts, t, hok, _⟩ | ⟨e, herr⟩)
  · rw [h] at hok
    cases hok
  · rw [h] at herr
    exact Fail.noConfusion (Except.error.inj herr)

/-- C1 (amended, restricted to single-byte inputs as the counterexample
forces): for every finite input of ASCII characters, `scan_tokens` either
returns a token sequence whose last element is the only Eof token, with
empty lexeme, or returns exactly one lexical error; termination holds by
construction (the scan consumes at least one character per iteration, and
the fuel `byteLen source + 1` supplied by `scan_tokens` is proved
sufficient: the fuel-exhaustion marker does not occur among the outcomes
below). -/
theorem c1_scan_dichotomy (src : List Char) (hA : allASCII src = true) :
    (∃ ts t, scan_tokens src = .ok (ts ++ [t]) ∧ Token.ttype t = .Eof ∧
      Token.lexeme t = [] ∧ ∀ u ∈ ts, Token.ttype u ≠ .Eof) ∨
    (∃ e, scan_tokens src = .error (.err e)) := by
  rcases scan_tokens_spec src hA with ⟨e, herr⟩ | ⟨toks, l, hok, htr⟩
  · exact Or.inr ⟨e, herr⟩
  · exact Or.inl ⟨toks, ⟨.Eof, [], [], l⟩, hok, rfl, rfl, Trace.no_eof _ _ _ _ htr⟩

/-- C1 (witness): the amended dichotomy applied to the concrete ASCII input
`"a"`. -/
theorem c1_scan_dichotomy_witness :
    allASCII (("a").toList) = true ∧
    ((∃ ts t, scan_tokens (("a").toList) = .ok (ts ++ [t]) ∧
        Token.ttype t = .Eof ∧ Token.lexeme t = [] ∧
        ∀ u ∈ ts, Token.ttype u ≠ .Eof) ∨
      (∃ e, scan_tokens (("a").toList) = .error (.err e))) :=
  ⟨by decide, c1_scan_dichotomy (("a").toList) (by decide)⟩

/-- C2 (confirmed): whenever scanning succeeds the tokens come in source
order with non-decreasing line numbers, and the source is reconstructed
exactly by interleaving the skipped whitespace/comment spans with the
token lexemes in order (`weave`).  (Success itself forces the input to be
ASCII, where byte offsets and character indices agree.) -/
theorem c2_order_roundtrip (src : List Char) (toks : List Token)
    (h : scan_tokens src = .ok toks) :
    List.Pairwise (fun a b => Token.line a ≤ Token.line b) toks ∧
    ∃ skips, List.length skips = toks.length + 1 ∧ weave skips toks = src := by
  have hA := scan_ok_ascii src toks h
  rcases scan_tokens_spec src hA with ⟨e, herr⟩ | ⟨toks0, l, hok, htr⟩
  · rw [herr] at h
    cases h
  · rw [hok] at h
    have heq : toks = toks0 ++ [⟨.Eof, [], [], l⟩] := (Except.ok.inj h).symm
    subst heq
    constructor
    · rw [List.pairwise_append]
      refine ⟨Trace.lines_pairwise _ _ _ _ htr, List.pairwise_singleton _ _, ?_⟩
      intro a ha b hb
      rcases List.mem_singleton.mp hb with rfl
      have := Trace.mem_line _ _ _ _ htr a ha
      exact this.2
    · obtain ⟨skips, hlen, hw⟩ := Trace.weave_decomp _ _ _ _ htr
      refine ⟨skips ++ [[]], by simp [hlen], ?_⟩
      rw [weave_snoc toks0 skips hlen ⟨.Eof, [], [], l⟩ rfl, hw]

/-- C2 (witness): the order/round-trip theorem applied to the concrete
successful scan of `"a"`. -/
theorem c2_order_roundtrip_witness :
    scan_tokens (("a").toList) =
      .ok [⟨.Identifier, ("a").toList, ("a").toList, 1⟩, ⟨.Eof, [], [], 1⟩] ∧
    (List.Pairwise (fun a b => Token.line a ≤ Token.line b)
        [⟨.Identifier, ("a").toList, ("a").toList, 1⟩, ⟨.Eof, [], [], 1⟩] ∧
      ∃ skips, List.length skips =
          List.length [⟨.Identifier, ("a").toList, ("a").toList, 1⟩,
            (⟨.Eof, [], [], 1⟩ : Token)] + 1 ∧
        weave skips [⟨.Identifier, ("a").toList, ("a").toList, 1⟩, ⟨.Eof, [], [], 1⟩] =
          ("a").toList) :=
  ⟨rfl, c2_order_roundtrip (("a").toList) _ rfl⟩

/-- C4 (counterexample): the claim says a token's `line` is the line of the
token's *first* character, and in particular that a multi-line string is
reported at its opening quote.  Scanning the five-character source
`"a\nb"` (one string literal spanning lines 1–2) produces a String token
whose lexeme is the whole source — so its first character is the source's
first character, on line `1 + countNL [] = 1` — yet the recorded line is
2, the line of the *closing* quote: `Scanner::string` bumps `line` for the
embedded newline before `add_token_literal` stamps the token. -/
theorem c4_counterexample :
    scan_tokens (("\"a\nb\"").toList) =
      .ok [⟨.String, ("\"a\nb\"").toList, ("a\nb").toList, 2⟩, ⟨.Eof, [], [], 2⟩] ∧
    1 + countNL ([] : List Char) ≠ 2 := by
  exact ⟨rfl, by decide⟩

/-- C4 (amended, changed only where the counterexample forces): every
emitted token's `line` is the line number at the *end* of its lexeme —
`1` plus the newlines of the source up to and including the lexeme.  For
every token whose lexeme contains no newline (all kinds except multi-line
strings) this equals the 1-based line of the token's first character; a
string literal spanning several lines is reported at the line of its
closing quote. -/
theorem c4_line_at_token_end (src : List Char) (toks : List Token)
    (h : scan_tokens src = .ok toks) :
    ∀ t ∈ toks, ∃ pre post, src = pre ++ Token.lexeme t ++ post ∧
      Token.line t = 1 + countNL pre + countNL (Token.lexeme t) := by
  have hA := scan_ok_ascii src toks h
  rcases scan_tokens_spec src hA with ⟨e, herr⟩ | ⟨toks0, l, hok, htr⟩
  · rw [herr] at h
    cases h
  · rw [hok] at h
    have heq : toks = toks0 ++ [⟨.Eof, [], [], l⟩] := (Except.ok.inj h).symm
    subst heq
    intro t ht
    rcases List.mem_append.mp ht with ht | ht
    · exact Trace.token_pos _ _ _ _ htr t ht
    · rcases List.mem_singleton.mp ht with rfl
      refine ⟨src, [], by simp, ?_⟩
      have := Trace.line_total _ _ _ _ htr
      have h0 : countNL ([] : List Char) = 0 := rfl
      dsimp only
      omega

/-- C4 (witness): the amended line statement applied to the Identifier
token of the concrete scan of `"a"`. -/
theorem c4_line_at_token_end_witness :
    scan_tokens (("a").toList) =
      .ok [⟨.Identifier, ("a").toList, ("a").toList, 1⟩, ⟨.Eof, [], [], 1⟩] ∧
    (∃ pre post, ("a").toList =
        pre ++ Token.lexeme (⟨.Identifier, ("a").toList, ("a").toList, 1⟩ : Token) ++ post ∧
      Token.line (⟨.Identifier, ("a").toList, ("a").toList, 1⟩ : Token) =
        1 + countNL pre +
          countNL (Token.lexeme (⟨.Identifier, ("a").toList, ("a").toList, 1⟩ : Token))) :=
  ⟨rfl, c4_line_at_token_end (("a").toList) _ rfl
    ⟨.Identifier, ("a").toList, ("a").toList, 1⟩ (List.mem_cons_self _ _)⟩

theorem scanLoop_not_end_step (fuel : Nat) (st : Scanner)
    (hend : ¬ is_at_end st = true) :
    scanLoop (fuel + 1) st =
      (match scan_token fuel { st with start := st.current } with
        | .error f => Except.error f
        | .ok st2 => scanLoop fuel st2) := by
  conv_lhs => unfold scanLoop
  rw [if_neg hend]

theorem scanLoop_at_end_step (fuel : Nat) (st : Scanner)
    (hend : is_at_end st = true) :
    scanLoop (fuel + 1) st = .ok st := by
  conv_lhs => unfold scanLoop
  rw [if_pos hend]

/-- C9 (counterexample): the claim covers *every* string literal, but a
literal whose body holds a multi-byte character refutes it: on the input
`"é` (opening quote, two-byte `é`, no closing quote) end of input is
reached before a closing quote, so the claim demands an UnterminatedString
failure — instead the body loop's `peek` calls `chars().nth(2)` with the
character index exhausted while the byte-based `is_at_end` (2 < 3) still
answers false, and the `unwrap` of `None` panics.  The result is neither a
lexical error nor a token stream. -/
theorem c9_counterexample :
    scan_tokens (("\"é").toList) = .error .panic ∧
    ¬ (scan_tokens (("\"é").toList) = .error (.err .UnterminatedString) ∨
        ∃ toks, scan_tokens (("\"é").toList) = .ok toks) := by
  have h : scan_tokens (("\"é").toList) = .error .panic := by rfl
  refine ⟨h, ?_⟩
  rintro (heq | ⟨toks, heq⟩)
  · rw [h] at heq
    exact Fail.noConfusion (Except.error.inj heq)
  · rw [h] at heq
    cases heq

/-- C9 (amended, restricted to single-byte bodies exactly as the
counterexample forces): for a string literal `"body"` whose body consists
of ASCII characters and contains no quote: with a closing quote the scan
emits exactly one String token whose literal is the text strictly between
the quotes and whose lexeme is the full quoted text, followed by Eof;
without a closing quote the scan fails with UnterminatedString.  Newlines
in the body are permitted and counted (the token is stamped with the line
reached after them).  A body with a multi-byte character instead makes the
scanner panic, as the counterexample shows. -/
theorem c9_string_literal (body : List Char) (hA : allASCII body = true)
    (hq : '"' ∉ body) :
    scan_tokens ('"' :: (body ++ ['"'])) =
      .ok [⟨.String, '"' :: (body ++ ['"']), body, 1 + countNL body⟩, ⟨.Eof, [], [], 1 + countNL body⟩] ∧
    scan_tokens ('"' :: body) = .error (.err .UnterminatedString) := by
  constructor
  · -- terminated string literal
    have hA1 : allASCII ('"' :: (body ++ ['"'])) = true := by
      simp only [allASCII, List.all_cons, List.all_append, Bool.and_eq_true] at hA ⊢
      exact ⟨by decide, hA, by decide, by decide⟩
    have hlen : ('"' :: (body ++ ['"'])).length = body.length + 2 := by simp
    have hbl : byteLen ('"' :: (body ++ ['"'])) = body.length + 2 := by
      rw [byteLen_of_ascii _ hA1, hlen]
    have hgq : ('"' :: (body ++ ['"'])).get? (1 + body.length) = some '"' := by
      rw [show 1 + body.length = body.length + 1 from by omega]
      rw [List.get?_cons_succ, List.get?_append_right (le_refl _)]
      simp
    have hgb : ∀ k, ('"' :: (body ++ ['"'])).get? (k + 1) = some '"' →
        k < body.length → ('"' : Char) ∈ body := by
      intro k hk hklt
      rw [List.get?_cons_succ, List.get?_append hklt] at hk
      exact List.get?_mem hk
    have hstep : scan_token (body.length + 2) ⟨'"' :: (body ++ ['"']), [], 0, 0, 1⟩ =
        stringScan (body.length + 2) ⟨'"' :: (body ++ ['"']), [], 0, 1, 1⟩ := rfl
    rcases stringScan_spec (body.length + 2) ⟨'"' :: (body ++ ['"']), [], 0, 1, 1⟩
        hA1 rfl (by show 1 ≤ ('"' :: (body ++ ['"'])).length; rw [hlen]; omega)
        (by show ('"' :: (body ++ ['"'])).length - 1 < body.length + 2; rw [hlen]; omega) with
      ⟨c1, herr, hx1, hx2, hx3⟩ | ⟨c1, l1, hok, hl1, hc1a, hc1b, hqc, hnq⟩
    · exfalso
      dsimp only at hx1 hx2 hx3
      rw [hlen] at hx2
      exact hx3 '"'
        (mem_sspan _ 1 c1 (1 + body.length) '"' (by omega) (by omega) hgq) rfl
    · dsimp only at hok hl1 hc1a hc1b hqc hnq
      rw [hlen] at hc1b
      have hc1 : c1 = 1 + body.length := by
        rcases Nat.lt_trichotomy c1 (1 + body.length) with hlt | heq | hgt
        · exfalso
          obtain ⟨k, rfl⟩ : ∃ k, c1 = k + 1 := ⟨c1 - 1, by omega⟩
          exact hq (hgb k hqc (by omega))
        · exact heq
        · exfalso
          exact hnq '"'
            (mem_sspan _ 1 c1 (1 + body.length) '"' (by omega) (by omega) hgq) rfl
      subst hc1
      have hspan_body : sspan ('"' :: (body ++ ['"'])) 1 (1 + body.length) = body := by
        unfold sspan
        rw [show ('"' :: (body ++ ['"'])).drop 1 = body ++ ['"'] from rfl,
          show 1 + body.length - 1 = body.length from by omega, List.take_left]
      have hspan_all : sspan ('"' :: (body ++ ['"'])) 0 (1 + body.length + 1) =
          '"' :: (body ++ ['"']) := by
        unfold sspan
        rw [List.drop_zero, show 1 + body.length + 1 - 0 = ('"' :: (body ++ ['"'])).length from by rw [hlen]; omega]
        exact List.take_length _
      have hl1' : l1 = 1 + countNL body := by
        rw [hl1, hspan_body]
      unfold scan_tokens
      rw [hbl]
      rw [scanLoop_not_end_step (body.length + 2) ⟨'"' :: (body ++ ['"']), [], 0, 0, 1⟩
        (by unfold is_at_end; simp only [decide_eq_true_eq]; rw [hbl]; omega)]
      dsimp only
      rw [hstep, hok]
      dsimp only
      rw [show body.length + 2 = body.length + 1 + 1 from rfl]
      rw [scanLoop_at_end_step (body.length + 1) _
        (by unfold is_at_end; simp only [decide_eq_true_eq]; rw [hbl]; omega)]
      dsimp only
      rw [hspan_all, show (0 : Nat) + 1 = 1 from rfl, hspan_body, hl1']
      simp
  · -- unterminated string literal
    have hA2 : allASCII ('"' :: body) = true := by
      simp only [allASCII, List.all_cons, Bool.and_eq_true] at hA ⊢
      exact ⟨by decide, hA⟩
    have hlen2 : ('"' :: body).length = body.length + 1 := by simp
    have hbl2 : byteLen ('"' :: body) = body.length + 1 := by
      rw [byteLen_of_ascii _ hA2, hlen2]
    have hstep2 : scan_token (body.length + 1) ⟨'"' :: body, [], 0, 0, 1⟩ =
        stringScan (body.length + 1) ⟨'"' :: body, [], 0, 1, 1⟩ := rfl
    rcases stringScan_spec (body.length + 1) ⟨'"' :: body, [], 0, 1, 1⟩
        hA2 rfl (by show 1 ≤ ('"' :: body).length; rw [hlen2]; omega)
        (by show ('"' :: body).length - 1 < body.length + 1; rw [hlen2]; omega) with
      ⟨c1, herr, hx1, hx2, hx3⟩ | ⟨c1, l1, hok, hl1, hc1a, hc1b, hqc, hnq⟩
    · unfold scan_tokens
      rw [hbl2]
      rw [scanLoop_not_end_step (body.length + 1) ⟨'"' :: body, [], 0, 0, 1⟩
        (by unfold is_at_end; simp only [decide_eq_true_eq]; rw [hbl2]; omega)]
      dsimp only
      rw [hstep2, herr]
    · exfalso
      dsimp only at hc1a hqc
      obtain ⟨k, rfl⟩ : ∃ k, c1 = k + 1 := ⟨c1 - 1, by omega⟩
      rw [List.get?_cons_succ] at hqc
      exact hq (List.get?_mem hqc)

/-- C9 (witness): the string-literal theorem applied to the concrete body
`abc`: `"abc"` scans to one String token with literal `abc`, and `"abc`
without the closing quote fails with UnterminatedString. -/
theorem c9_string_literal_witness :
    allASCII (("abc").toList) = true ∧ ('"' ∉ ("abc").toList) ∧
    (scan_tokens ('"' :: (("abc").toList ++ ['"'])) =
      .ok [⟨.String, '"' :: (("abc").toList ++ ['"']), ("abc").toList, 1 + countNL (("abc").toList)⟩, ⟨.Eof, [], [], 1 + countNL (("abc").toList)⟩] ∧
    scan_tokens ('"' :: ("abc").toList) = .error (.err .UnterminatedString)) :=
  ⟨by decide, by decide, c9_string_literal (("abc").toList) (by decide) (by decide)⟩
